import Mathlib

/-!
Verification of the Shrdlite planning core: a shallow embedding of the
block-world state model (`Planner.ts`), the generic A* search engine and its
updatable binary heap (`Graph.ts`), together with theorems settling the
specification claims about them.

Conventions of the embedding:
* JS arrays become `List`, JS `null`/`undefined` for scalars become `Option`,
  JS numbers in the planner are integers and become `Int` (no fractional
  values ever arise in the translated code).
* A JS function that can throw is translated into `Except String`.
* `Array.prototype.indexOf` is `indexOfJS`, returning `-1` when absent.
-/

/-- Physical attributes of a block-world object (`form`, `size`, `color`
from the world definition in `World.ts`). -/
structure ObjDef where
  form : String
  size : String
  color : String
deriving DecidableEq, Repr

/-- The world snapshot (`WorldState` from `World.ts`): stack contents (bottom
to top), the held object (`null` when the arm is empty — after a drop the
code stores the empty string instead), the arm column, the object attribute
map (a JS object, modelled as an association list) and the inert `examples`
field.  The field `stacks` is spelled `stacks'` because `stacks` is a
reserved token of the ambient library. -/
structure WorldState where
  stacks' : List (List String)
  holding : Option String
  arm : Int
  objects : List (String × ObjDef)
  examples : List String
deriving DecidableEq, Repr

/-- JS property lookup `state.objects[id]` (undefined when absent). -/
def lookupObject (objects : List (String × ObjDef)) (id : String) : Option ObjDef :=
  (objects.find? (fun p => p.1 = id)).map (·.2)

/-- A goal literal (`Interpreter.Literal`): polarity flag, relation name and
argument identifiers (possibly the sentinel `"floor"`). -/
structure Literal where
  polarity : Bool
  relation : String
  args : List String
deriving DecidableEq, Repr

/-- `Interpreter.DNFFormula`: a disjunction of conjunctive clauses. -/
abbrev Conjunction := List Literal
abbrev DNFFormula := List Conjunction

/-- `Array.prototype.indexOf`: index of the first occurrence, `-1` if absent. -/
def indexOfJS : List String → String → Int
  | [], _ => -1
  | a :: rest, x =>
    if a = x then 0
    else
      let r := indexOfJS rest x
      if r < 0 then -1 else r + 1

/-- `allValues` from `Arrays.ts`: every element matches the predicate. -/
def allValues (array : List α) (match' : α → Bool) : Bool :=
  array.all match'

/-- `anyValue` from `Arrays.ts`: some element matches the predicate. -/
def anyValue (array : List α) (match' : α → Bool) : Bool :=
  array.any match'

/-- JS argument access `literal.args[i]`; the interpreter always supplies two
arguments, so the default is never observed in reachable executions. -/
def argJS (l : Literal) (i : Nat) : String :=
  l.args.getD i ""

/-- `literalHolds` (Planner.ts, second module): whether a literal holds in a
world state.  The translation mirrors the `switch` case by case; the loops
with early `return true` become existential `any` scans, and the `beside`
loop, which returns on the first stack containing the first argument, becomes
a `findIdx?`. -/
def literalHolds (literal : Literal) (state : WorldState) : Bool :=
  match literal.relation with
  | "holding" =>
    -- state.holding == literal.args[0] (null compares unequal to a string)
    match state.holding with
    | some h => h = argJS literal 0
    | none => false
  | "ontop" =>
    if argJS literal 1 = "floor" then
      state.stacks'.any (fun stack => indexOfJS stack (argJS literal 0) = 0)
    else
      state.stacks'.any (fun stack =>
        indexOfJS stack (argJS literal 0) = indexOfJS stack (argJS literal 1) - 1)
  | "inside" =>
    state.stacks'.any (fun stack =>
      indexOfJS stack (argJS literal 0) = indexOfJS stack (argJS literal 1) - 1)
  | "above" =>
    if argJS literal 1 = "floor" then true
    else
      state.stacks'.any (fun stack =>
        indexOfJS stack (argJS literal 0) > indexOfJS stack (argJS literal 1))
  | "under" =>
    state.stacks'.any (fun stack =>
      indexOfJS stack (argJS literal 0) < indexOfJS stack (argJS literal 1))
  | "beside" =>
    match state.stacks'.findIdx? (fun stack => indexOfJS stack (argJS literal 0) > -1) with
    | some x =>
      (decide (1 ≤ x) &&
        indexOfJS (state.stacks'.getD (x - 1) []) (argJS literal 1) > -1) ||
      (decide (x < state.stacks'.length - 1) &&
        indexOfJS (state.stacks'.getD (x + 1) []) (argJS literal 1) > -1)
    | none => false
  | "leftof" =>
    (List.range state.stacks'.length).any (fun x =>
      indexOfJS (state.stacks'.getD x []) (argJS literal 0) > -1 &&
        (List.range state.stacks'.length).any (fun x2 =>
          decide (x < x2) && indexOfJS (state.stacks'.getD x2 []) (argJS literal 1) > -1))
  | "rightof" =>
    (List.range state.stacks'.length).any (fun x =>
      indexOfJS (state.stacks'.getD x []) (argJS literal 0) > -1 &&
        (List.range state.stacks'.length).any (fun x2 =>
          decide (x2 < x) && indexOfJS (state.stacks'.getD x2 []) (argJS literal 1) > -1))
  | _ => false

/-- `getPosition`: the `[stack index, position]` of an object; throws when the
object is in no stack (this models the `throw Error(...)` branch). -/
def getPosition (objectId : String) (state : WorldState) : Except String (Nat × Int) :=
  match state.stacks'.findIdx? (fun stack => indexOfJS stack objectId > -1) with
  | some x => Except.ok (x, indexOfJS (state.stacks'.getD x []) objectId)
  | none => Except.error ("ERROR: Object " ++ objectId ++ " does not exist.")

/-- `distanceFromArm`: horizontal distance from the arm to the object. -/
def distanceFromArm (objectId : String) (state : WorldState) : Except String Int := do
  let p ← getPosition objectId state
  pure ((p.1 - state.arm : Int).natAbs)

/-- `objectsAbove`: how many objects sit above the given object. -/
def objectsAbove (objectId : String) (state : WorldState) : Except String Int := do
  let p ← getPosition objectId state
  pure ((state.stacks'.getD p.1 []).length - p.2 - 1)

/-- `estimatedCostLiteral` (Planner.ts, second module): per-literal heuristic
cost.  A literal that already holds costs 0; otherwise each relation adds the
holding surcharge, clearing costs (3 per object above) and arm distances.
Failed `getPosition` lookups propagate as errors, as the JS exceptions do. -/
def estimatedCostLiteral (literal : Literal) (state : WorldState) : Except String Int :=
  if literalHolds literal state then Except.ok 0
  else
    let holdingCost : Int := if state.holding.isNone then 1 else 2
    if literal.relation = "holding" then do
      let d0 ← distanceFromArm (argJS literal 0) state
      pure (holdingCost + d0)
    else if literal.relation = "ontop" ∨ literal.relation = "inside" then do
      let a0 ← objectsAbove (argJS literal 0) state
      let d0 ← distanceFromArm (argJS literal 0) state
      let a1 ← objectsAbove (argJS literal 1) state
      let d1 ← distanceFromArm (argJS literal 1) state
      pure (holdingCost + a0 * 3 + d0 + a1 * 3 + d1)
    else if literal.relation = "above" then do
      let a0 ← objectsAbove (argJS literal 0) state
      let d0 ← distanceFromArm (argJS literal 0) state
      let d1 ← distanceFromArm (argJS literal 1) state
      pure (holdingCost + a0 * 3 + d0 + d1)
    else if literal.relation = "under" then do
      let a0 ← objectsAbove (argJS literal 0) state
      let d0 ← distanceFromArm (argJS literal 0) state
      let a1 ← objectsAbove (argJS literal 1) state
      let d1 ← distanceFromArm (argJS literal 1) state
      pure ((if holdingCost = 1 then (6 : Int) else 8) + a0 * 3 + d0 + a1 * 3 + d1)
    else if literal.relation = "beside" then do
      let a0 ← objectsAbove (argJS literal 0) state
      let d0 ← distanceFromArm (argJS literal 0) state
      let d1 ← distanceFromArm (argJS literal 1) state
      pure (holdingCost + a0 * 3 + d0 + (d1 - 1))
    else if literal.relation = "leftof" then do
      let a0 ← objectsAbove (argJS literal 0) state
      let d0 ← distanceFromArm (argJS literal 0) state
      let p1 ← getPosition (argJS literal 1) state
      pure (holdingCost + a0 * 3 + d0 + ((p1.1 + 1 - state.arm : Int).natAbs : Int))
    else if literal.relation = "rightof" then do
      let a0 ← objectsAbove (argJS literal 0) state
      let d0 ← distanceFromArm (argJS literal 0) state
      let p1 ← getPosition (argJS literal 1) state
      pure (holdingCost + a0 * 3 + d0 + ((p1.1 - 1 - state.arm : Int).natAbs : Int))
    else
      Except.ok 0

/-- JS numbers produced by `Math.min.apply`/`Math.max.apply`, which yield
`Infinity`/`-Infinity` on empty arrays: integers extended with both
infinities. -/
abbrev JNum := WithBot (WithTop Int)

/-- An ordinary integer cost viewed as a `JNum`. -/
def jnum (n : Int) : JNum := ((n : WithTop Int) : JNum)

/-- `Math.max.apply(null, costs)`: fold of `max` starting from `-Infinity`. -/
def jsMaxList (cs : List Int) : JNum :=
  cs.foldl (fun acc n => max acc (jnum n)) ⊥

/-- `Math.min.apply(null, values)`: fold of `min` starting from `Infinity`. -/
def jsMinList (ms : List JNum) : JNum :=
  ms.foldl min ⊤

/-- The cost of one conjunctive clause inside `StateNode.heuristics`:
`Math.max.apply(null, conjunction.map(literal => estimatedCostLiteral(...)))`. -/
def clauseEstimate (state : WorldState) (conjunction : Conjunction) : Except String JNum := do
  let cs ← conjunction.mapM (fun literal => estimatedCostLiteral literal state)
  pure (jsMaxList cs)

/-- `StateNode.heuristics`: minimum over the formula clauses of the maximum
over each clause of the literal estimates. -/
def heuristics (interpretation : DNFFormula) (state : WorldState) : Except String JNum := do
  let ms ← interpretation.mapM (clauseEstimate state)
  pure (jsMinList ms)

/-- `StateNode.isGoal`: some clause has all its literals hold. -/
def isGoal (interpretation : DNFFormula) (state : WorldState) : Bool :=
  anyValue interpretation (fun conjunction =>
    allValues conjunction (fun literal => literalHolds literal state))

/-- A fragment of `JSON.stringify` sufficient for the structures at hand; the
planner only ever inspects the length of the result (in `canDrop`) and its
equality on nodes (in `compareTo`, modelled separately by structural
equality). -/
def jsonOfString (s : String) : String := "\"" ++ s ++ "\""

/-- Serialize a stack as a JSON array of strings. -/
def jsonOfStack (stack : List String) : String :=
  "[" ++ String.intercalate "," (stack.map jsonOfString) ++ "]"

/-- Serialize the whole state; only its (always positive) length matters. -/
def jsonOfState (state : WorldState) : String :=
  "\x7b\"stacks\":[" ++ String.intercalate "," (state.stacks'.map jsonOfStack) ++
    "],\"holding\":" ++ (match state.holding with
      | some h => jsonOfString h
      | none => "null") ++
    ",\"arm\":" ++ toString state.arm ++ "\x7d"

/-- The physical stacking rules of `canDrop` (its body after the
`JSON.stringify(state).length > 0` guard), translated faithfully: the rules
read `objectOnTopOfStack.size` unconditionally, which in JS throws a
`TypeError` when the stack under the arm is empty (the object is
`undefined`); that throwing access is the `Except.error` branch. -/
def dropObeysRules (state : WorldState) : Except String Bool :=
  if state.holding.isNone then Except.ok false
  else
    let objectHeld := lookupObject state.objects (state.holding.getD "")
    let stackUnderArm := if 0 ≤ state.arm then state.stacks'.getD state.arm.toNat [] else []
    let objectOnTopOfStack := lookupObject state.objects (stackUnderArm.getLastD "")
    -- Balls must be in boxes or on the floor, otherwise they roll away.
    if (objectHeld.map (·.form) = some "ball") ∧ stackUnderArm.length ≠ 0 ∧
        ¬ objectOnTopOfStack.map (·.form) = some "box" then Except.ok false
    -- Balls cannot support anything.
    else if stackUnderArm.length > 0 ∧ objectOnTopOfStack.map (·.form) = some "ball" then
      Except.ok false
    else
      match objectOnTopOfStack with
      | none => Except.error "TypeError: cannot read properties of undefined"
      | some onTop =>
        -- Small objects cannot support large objects.
        if onTop.size = "small" ∧ objectHeld.map (·.size) = some "large" then Except.ok false
        -- Boxes cannot contain pyramids, planks or boxes of the same size.
        else if onTop.form = "box" ∧ some onTop.size = objectHeld.map (·.size) ∧
            (objectHeld.map (·.form) = some "pyramid" ∨
             objectHeld.map (·.form) = some "plank" ∨
             objectHeld.map (·.form) = some "box") then Except.ok false
        -- Small boxes cannot be supported by small bricks or pyramids.
        else if objectHeld.map (·.form) = some "box" ∧ objectHeld.map (·.size) = some "small" ∧
            onTop.size = "small" ∧ (onTop.form = "brick" ∨ onTop.form = "pyramid") then
          Except.ok false
        -- Large boxes cannot be supported by large pyramids.
        else if objectHeld.map (·.form) = some "box" ∧ objectHeld.map (·.size) = some "large" ∧
            onTop.form = "pyramid" ∧ onTop.size = "large" then Except.ok false
        else Except.ok true

/-- `canDrop` (Planner.ts, second module).  Its first statement,
`if (JSON.stringify(state).length > 0) return false;`, always fires because
the serialization of an object is a non-empty string, so the stacking rules
below it are dead code; they are recorded separately in `dropObeysRules`. -/
def canDrop (state : WorldState) : Bool :=
  if (jsonOfState state).length > 0 then false
  else
    match dropObeysRules state with
    | Except.ok b => b
    | Except.error _ => false

/-- `getPossibleMoves` (Planner.ts, second module): `p` when the arm holds
nothing (`state.holding == null`), otherwise `d` when `canDrop` allows it;
`l` when the arm is beyond column 0; `r` when `arm < stacks.length`. -/
def getPossibleMoves (state : WorldState) : List String :=
  (if state.holding.isNone then ["p"]
   else if canDrop state then ["d"] else []) ++
  (if state.arm > 0 then ["l"] else []) ++
  (if state.arm < (state.stacks'.length : Int) then ["r"] else [])

/-- JS stack access `stacks[arm]`; an out-of-range arm yields `undefined` in
JS (and any member access on it throws) — the reachable states keep the arm
inside `[0, stackCount-1]`, so the default is never observed. -/
def stackAtArm (sts : List (List String)) (arm : Int) : List String :=
  if 0 ≤ arm then sts.getD arm.toNat [] else []

/-- Replace the stack under the arm. -/
def setStackAtArm (sts : List (List String)) (arm : Int) (stack : List String) :
    List (List String) :=
  if 0 ≤ arm then sts.set arm.toNat stack else sts

/-- `newWorldState` (Planner.ts, second module): clone the stacks (value
semantics make the element-wise copy the identity here; the aliasing aspect
is modelled separately with an explicit store below), then apply the move:
`l`/`r` shift the arm inside bounds, `d` pushes the held object onto the
stack under the arm and stores the empty string in `holding`, `p` pops the
top of a non-empty stack into `holding`.  When `d` runs with an empty arm,
JS pushes `null`; that unreachable case (drops are only generated behind
`canDrop`) is modelled by pushing the empty string. -/
def newWorldState (state : WorldState) (move : String) : WorldState :=
  match move with
  | "l" =>
    if state.arm > 0 then { state with arm := state.arm - 1 } else state
  | "r" =>
    if state.arm < (state.stacks'.length : Int) - 1 then
      { state with arm := state.arm + 1 }
    else state
  | "d" =>
    { state with
        stacks' := setStackAtArm state.stacks' state.arm
          (stackAtArm state.stacks' state.arm ++ [state.holding.getD ""]),
        holding := some "" }
  | "p" =>
    if (stackAtArm state.stacks' state.arm).length > 0 then
      { state with
          holding := some ((stackAtArm state.stacks' state.arm).getLastD ""),
          stacks' := setStackAtArm state.stacks' state.arm
            (stackAtArm state.stacks' state.arm).dropLast }
    else state
  | _ => state

/-- `StateNode` (Planner.ts, second module): a world state together with the
move that produced it (empty string for the start node). -/
structure StateNode where
  move : String
  state : WorldState
deriving DecidableEq, Repr

/-- `StateNode.compareTo`: 0 when `JSON.stringify(this) === JSON.stringify(other)`,
100 otherwise.  `JSON.stringify` on these records (fixed field insertion
order, standard escaping) is injective, so the string comparison is modelled
as structural equality of the whole node — including the `move` label, which
the stringification covers. -/
def compareTo (a b : StateNode) : Int :=
  if a = b then 0 else 100

/-- An `Edge` of the generic graph abstraction (Graph.ts); `from` is a Lean
keyword and `to` a reserved token, hence `from'` and `to'`. -/
structure Edge (Node : Type) where
  from' : Node
  to' : Node
  cost : Int
deriving Repr

/-- `StateGraph.outgoingEdges`: one cost-1 edge per possible move
(`moves.indexOf(m) > -1`), each leading to a fresh node labelled with the
move. -/
def outgoingEdges (node : StateNode) : List (Edge StateNode) :=
  let moves := getPossibleMoves node.state
  (if indexOfJS moves "p" > -1 then
    [⟨node, ⟨"p", newWorldState node.state "p"⟩, 1⟩] else []) ++
  (if indexOfJS moves "d" > -1 then
    [⟨node, ⟨"d", newWorldState node.state "d"⟩, 1⟩] else []) ++
  (if indexOfJS moves "l" > -1 then
    [⟨node, ⟨"l", newWorldState node.state "l"⟩, 1⟩] else []) ++
  (if indexOfJS moves "r" > -1 then
    [⟨node, ⟨"r", newWorldState node.state "r"⟩, 1⟩] else [])

/-- `StateGraph.compareNodes`: delegates to `compareTo`. -/
def compareNodes (first second : StateNode) : Int :=
  compareTo first second

/-! ### Basic facts about the state model -/

/-- The serialization of a state is never empty (it is wrapped in braces). -/
lemma jsonOfState_length_pos (state : WorldState) : 0 < (jsonOfState state).length := by
  unfold jsonOfState
  simp only [String.length_append]
  have h : 0 < "\x7b\"stacks\":[".length := by decide
  omega

/-- The stringify guard at the top of `canDrop` always fires, so `canDrop` is
constantly `false` and the stacking rules below it are dead code. -/
lemma canDrop_false (state : WorldState) : canDrop state = false := by
  unfold canDrop
  simp [jsonOfState_length_pos state]

/-- An absent object has index `-1`. -/
lemma indexOfJS_of_not_mem {stack : List String} {x : String} (h : x ∉ stack) :
    indexOfJS stack x = -1 := by
  induction stack with
  | nil => rfl
  | cons a t ih =>
    simp only [List.mem_cons, not_or] at h
    have hax : ¬ a = x := fun hh => h.1 hh.symm
    simp only [indexOfJS, if_neg hax, ih h.2]
    norm_num

/-- A present object has a non-negative index. -/
lemma indexOfJS_nonneg {stack : List String} {x : String} (h : x ∈ stack) :
    0 ≤ indexOfJS stack x := by
  induction stack with
  | nil => cases h
  | cons a t ih =>
    by_cases hax : a = x
    · simp [indexOfJS, hax]
    · have hxt : x ∈ t := by
        rcases List.mem_cons.mp h with h1 | h1
        · exact absurd h1.symm hax
        · exact h1
      have := ih hxt
      simp only [indexOfJS, if_neg hax]
      omega

/-! ### Example world used by the concrete counterexamples and witnesses -/

/-- A large yellow box. -/
def boxLarge : ObjDef := ⟨"box", "large", "yellow"⟩

/-- A small white ball. -/
def ballSmall : ObjDef := ⟨"ball", "small", "white"⟩

/-- Attribute map of the small demonstration world. -/
def demoObjects : List (String × ObjDef) := [("k", boxLarge), ("b", ballSmall)]

/-- Arm over a stack topped by a large box while holding a small ball: the
physical stacking rules allow dropping the ball into the box. -/
def dropDemoState : WorldState := ⟨[["k"], []], some "b", 0, demoObjects, []⟩

/-- Membership in `getPossibleMoves`, with the dead `canDrop` branch
eliminated. -/
lemma mem_getPossibleMoves (s : WorldState) (m : String) :
    m ∈ getPossibleMoves s ↔
      (m = "p" ∧ s.holding = none) ∨ (m = "l" ∧ 0 < s.arm) ∨
      (m = "r" ∧ s.arm < (s.stacks'.length : Int)) := by
  unfold getPossibleMoves
  rcases hh : s.holding with _ | v <;>
    by_cases h1 : (0 : Int) < s.arm <;>
      by_cases h2 : s.arm < (s.stacks'.length : Int) <;>
        simp [canDrop_false, h1, h2]

/-- The drop move is never offered. -/
lemma d_not_mem_getPossibleMoves (s : WorldState) : "d" ∉ getPossibleMoves s := by
  simp [mem_getPossibleMoves]

/-- C1: the specification requires exactly one drop edge whenever the arm
holds an object and the stacking rules permit the placement.  The code can
never produce a drop edge: the first statement of `canDrop`
(`if (JSON.stringify(state).length > 0) return false;`) always fires, so
`canDrop` is constantly false and `getPossibleMoves` never offers `d` — even
in `dropDemoState`, where the rules (`dropObeysRules`, the remainder of the
`canDrop` body) explicitly permit dropping the held ball into the box below. -/
theorem drop_edges_never_produced :
    (∀ state : WorldState, canDrop state = false) ∧
    (∀ node : StateNode,
      (outgoingEdges node).all (fun e => e.to'.move != "d") = true) ∧
    dropObeysRules dropDemoState = Except.ok true ∧
    dropDemoState.holding = some "b" ∧
    getPossibleMoves dropDemoState = ["r"] := by
  refine ⟨canDrop_false, ?_, by rfl, rfl, by rfl⟩
  intro node
  have hd : indexOfJS (getPossibleMoves node.state) "d" = -1 :=
    indexOfJS_of_not_mem (d_not_mem_getPossibleMoves node.state)
  simp only [outgoingEdges, hd, List.all_append, Bool.and_eq_true]
  norm_num
  exact ⟨⟨fun _ => by decide, fun _ => by decide⟩, fun _ => by decide⟩

/-- A world with a single empty stack, the arm (holding nothing) over it. -/
def emptyStackState : WorldState := ⟨[[]], none, 0, demoObjects, []⟩

/-- C5 counterexample: in `emptyStackState` the stack under the arm is empty
and the arm is already at the rightmost column (`stackCount - 1 = 0`), yet
`getPossibleMoves` offers both `p` and `r` — contradicting the claim that
pick requires a non-empty stack and that right requires
`arm < stackCount - 1`. -/
theorem getPossibleMoves_offers_invalid_moves :
    getPossibleMoves emptyStackState = ["p", "r"] ∧
    stackAtArm emptyStackState.stacks' emptyStackState.arm = [] ∧
    emptyStackState.arm = (emptyStackState.stacks'.length : Int) - 1 := by
  exact ⟨by rfl, by rfl, by rfl⟩

/-- C5 amended: `p` is offered exactly when the arm holds nothing (with no
check that the stack under the arm is non-empty; a pick on an empty stack
leaves the state unchanged), and `r` is offered exactly when
`arm < stackCount` (so also at the rightmost column, where the resulting
edge is a self-loop because `newWorldState` leaves the arm in place). -/
theorem getPossibleMoves_pick_right_exact (s : WorldState) :
    ("p" ∈ getPossibleMoves s ↔ s.holding = none) ∧
    ("r" ∈ getPossibleMoves s ↔ s.arm < (s.stacks'.length : Int)) ∧
    ((stackAtArm s.stacks' s.arm).length = 0 → newWorldState s "p" = s) ∧
    (s.arm = (s.stacks'.length : Int) - 1 → newWorldState s "r" = s) := by
  refine ⟨?_, ?_, ?_, ?_⟩
  · simp [mem_getPossibleMoves]
  · simp [mem_getPossibleMoves]
  · intro h
    simp only [newWorldState]
    rw [if_neg]
    omega
  · intro h
    simp only [newWorldState]
    rw [if_neg]
    omega

/-- A world state shared by the node-comparison counterexample. -/
def compareDemoState : WorldState := ⟨[["k"], ["b"]], none, 0, demoObjects, []⟩

/-- C3 counterexample: two nodes carrying the same `WorldState` but produced
by different moves (`l` vs `r`) compare as different (`100`), because
`compareTo` stringifies the whole node — including its `move` label — so
node equality is not independent of the action labels. -/
theorem compareNodes_depends_on_move :
    compareNodes ⟨"l", compareDemoState⟩ ⟨"r", compareDemoState⟩ = 100 ∧
    (StateNode.mk "l" compareDemoState).state = (StateNode.mk "r" compareDemoState).state := by
  exact ⟨by rfl, rfl⟩

/-- C3 amended: `compareNodes` returns 0 exactly when the two nodes are
structurally equal as whole nodes — same `move` label and same (complete)
`WorldState` record — not merely when their WorldStates coincide. -/
theorem compareNodes_zero_iff_structural (a b : StateNode) :
    compareNodes a b = 0 ↔ a.move = b.move ∧ a.state = b.state := by
  unfold compareNodes compareTo
  constructor
  · intro h
    by_cases hab : a = b
    · cases hab
      exact ⟨rfl, rfl⟩
    · rw [if_neg hab] at h
      cases h
  · rintro ⟨h1, h2⟩
    cases a
    cases b
    cases h1
    cases h2
    simp

/-- C10: `above(x, y)` holds whenever `x` occurs in some stack not containing
`y` (the absent `y` gets index `-1`), regardless of where `y` actually is —
held by the arm or in another stack; symmetrically `under(x, y)` holds
whenever `y` occurs in some stack not containing `x`. -/
theorem above_under_of_absent_arg (p q : Bool) (s : WorldState) (x y : String)
    (stack : List String) (hmem : stack ∈ s.stacks') (hx : x ∈ stack) (hy : y ∉ stack) :
    literalHolds ⟨p, "above", [x, y]⟩ s = true ∧
    literalHolds ⟨q, "under", [y, x]⟩ s = true := by
  have hxi : 0 ≤ indexOfJS stack x := indexOfJS_nonneg hx
  have hyi : indexOfJS stack y = -1 := indexOfJS_of_not_mem hy
  constructor
  · simp only [literalHolds, argJS, List.getD_cons_zero, List.getD_cons_succ]
    split
    · rfl
    · simp only [List.any_eq_true, decide_eq_true_eq]
      exact ⟨stack, hmem, by omega⟩
  · simp only [literalHolds, argJS, List.getD_cons_zero, List.getD_cons_succ,
      List.any_eq_true, decide_eq_true_eq]
    exact ⟨stack, hmem, by omega⟩

/-! ### The heuristic is a min-of-max (C4) -/

/-- A least element of a list of JS numbers. -/
def IsLeastOf (m : JNum) (ms : List JNum) : Prop :=
  m ∈ ms ∧ ∀ x ∈ ms, m ≤ x

/-- A greatest element of a list of integer costs, viewed in `JNum`. -/
def IsGreatestOf (v : JNum) (cs : List Int) : Prop :=
  v ∈ cs.map jnum ∧ ∀ n ∈ cs, jnum n ≤ v

lemma foldl_min_le_init {α : Type} [LinearOrder α] (l : List α) (a : α) :
    l.foldl min a ≤ a := by
  induction l generalizing a with
  | nil => simp
  | cons b t ih => exact le_trans (ih (min a b)) (min_le_left a b)

lemma foldl_min_le_mem {α : Type} [LinearOrder α] (l : List α) (a : α) (x : α)
    (hx : x ∈ l) : l.foldl min a ≤ x := by
  induction l generalizing a with
  | nil => cases hx
  | cons b t ih =>
    rcases List.mem_cons.mp hx with h | h
    · subst h
      exact le_trans (foldl_min_le_init t (min a x)) (min_le_right a x)
    · exact ih (min a b) h

lemma foldl_min_mem_or {α : Type} [LinearOrder α] (l : List α) (a : α) :
    l.foldl min a = a ∨ l.foldl min a ∈ l := by
  induction l generalizing a with
  | nil => exact Or.inl rfl
  | cons b t ih =>
    rcases ih (min a b) with he | hm
    · rcases min_choice a b with hab | hab
      · exact Or.inl (by rw [List.foldl_cons, he, hab])
      · exact Or.inr (by rw [List.foldl_cons, he, hab]; exact List.mem_cons_self b t)
    · exact Or.inr (List.mem_cons_of_mem b hm)

lemma foldl_max_init_le {α : Type} [LinearOrder α] (l : List α) (a : α) :
    a ≤ l.foldl max a := by
  induction l generalizing a with
  | nil => simp
  | cons b t ih => exact le_trans (le_max_left a b) (ih (max a b))

lemma foldl_max_mem_le {α : Type} [LinearOrder α] (l : List α) (a : α) (x : α)
    (hx : x ∈ l) : x ≤ l.foldl max a := by
  induction l generalizing a with
  | nil => cases hx
  | cons b t ih =>
    rcases List.mem_cons.mp hx with h | h
    · subst h
      exact le_trans (le_max_right a x) (foldl_max_init_le t (max a x))
    · exact ih (max a b) h

lemma foldl_max_mem_or {α : Type} [LinearOrder α] (l : List α) (a : α) :
    l.foldl max a = a ∨ l.foldl max a ∈ l := by
  induction l generalizing a with
  | nil => exact Or.inl rfl
  | cons b t ih =>
    rcases ih (max a b) with he | hm
    · rcases max_choice a b with hab | hab
      · exact Or.inl (by rw [List.foldl_cons, he, hab])
      · exact Or.inr (by rw [List.foldl_cons, he, hab]; exact List.mem_cons_self b t)
    · exact Or.inr (List.mem_cons_of_mem b hm)

/-- `jsMinList` computes the least element of a non-empty list. -/
lemma jsMinList_isLeast (ms : List JNum) (h : ms ≠ []) : IsLeastOf (jsMinList ms) ms := by
  have hbound : ∀ x ∈ ms, jsMinList ms ≤ x := fun x hx => foldl_min_le_mem ms ⊤ x hx
  refine ⟨?_, hbound⟩
  rcases foldl_min_mem_or ms ⊤ with he | hm
  · rcases ms with _ | ⟨m, t⟩
    · exact absurd rfl h
    · have h1 : jsMinList (m :: t) ≤ m := hbound m (List.mem_cons_self m t)
      have h2 : jsMinList (m :: t) = ⊤ := he
      have h3 : m = ⊤ := top_le_iff.mp (h2 ▸ h1)
      rw [h2, h3.symm]
      exact List.mem_cons_self m t
  · exact hm

/-- `jsMaxList` is the fold of `max` over the injected list. -/
lemma jsMaxList_eq_foldl (cs : List Int) :
    jsMaxList cs = (cs.map jnum).foldl max ⊥ := by
  unfold jsMaxList
  rw [List.foldl_map]

/-- `jsMaxList` computes the greatest element of a non-empty cost list. -/
lemma jsMaxList_isGreatest (cs : List Int) (h : cs ≠ []) : IsGreatestOf (jsMaxList cs) cs := by
  have hbound : ∀ n ∈ cs, jnum n ≤ jsMaxList cs := by
    intro n hn
    rw [jsMaxList_eq_foldl]
    exact foldl_max_mem_le _ _ _ (List.mem_map_of_mem jnum hn)
  refine ⟨?_, hbound⟩
  rw [jsMaxList_eq_foldl]
  rcases foldl_max_mem_or (cs.map jnum) ⊥ with he | hm
  · rcases cs with _ | ⟨n, t⟩
    · exact absurd rfl h
    · exfalso
      have h1 : jnum n ≤ ((n :: t).map jnum).foldl max ⊥ :=
        foldl_max_mem_le _ _ _ (List.mem_map_of_mem jnum (List.mem_cons_self n t))
      rw [he] at h1
      exact WithBot.coe_ne_bot (le_bot_iff.mp h1)
  · exact hm

/-- C4: a literal that already holds costs 0, a clause is estimated by the
maximum of its literal costs, and the formula by the minimum over its
clauses: `heuristics` is exactly the min-of-max combination of
`estimatedCostLiteral`. -/
theorem heuristics_min_of_max (f : DNFFormula) (s : WorldState) :
    (∀ l : Literal, literalHolds l s = true → estimatedCostLiteral l s = Except.ok 0) ∧
    (∀ (c : Conjunction) (cs : List Int),
      c.mapM (fun l => estimatedCostLiteral l s) = Except.ok cs →
      clauseEstimate s c = Except.ok (jsMaxList cs) ∧
        (cs ≠ [] → IsGreatestOf (jsMaxList cs) cs)) ∧
    (∀ ms : List JNum, f.mapM (clauseEstimate s) = Except.ok ms →
      heuristics f s = Except.ok (jsMinList ms) ∧
        (ms ≠ [] → IsLeastOf (jsMinList ms) ms)) := by
  refine ⟨?_, ?_, ?_⟩
  · intro l hl
    unfold estimatedCostLiteral
    rw [if_pos hl]
  · intro c cs hcs
    refine ⟨?_, fun hne => jsMaxList_isGreatest cs hne⟩
    unfold clauseEstimate
    rw [hcs]
    rfl
  · intro ms hms
    refine ⟨?_, fun hne => jsMinList_isLeast ms hne⟩
    unfold heuristics
    rw [hms]
    rfl

/-- C4 witness: in `dropDemoState` (holding the ball `b`), the formula
"holding k or holding b" evaluates to clause estimates `[2, 0]` and overall
heuristic 0; the already-true literal `holding b` costs 0. -/
theorem heuristics_min_of_max_witness :
    heuristics [[Literal.mk true "holding" ["k"]], [Literal.mk true "holding" ["b"]]]
      dropDemoState = Except.ok (jsMinList [jnum 2, jnum 0]) ∧
    IsLeastOf (jsMinList [jnum 2, jnum 0]) [jnum 2, jnum 0] ∧
    estimatedCostLiteral (Literal.mk true "holding" ["b"]) dropDemoState = Except.ok 0 := by
  have h := heuristics_min_of_max
    [[Literal.mk true "holding" ["k"]], [Literal.mk true "holding" ["b"]]] dropDemoState
  have h3 := h.2.2 [jnum 2, jnum 0] (by rfl)
  exact ⟨h3.1, h3.2 (by decide), h.1 (Literal.mk true "holding" ["b"]) (by rfl)⟩

/-- C5 witness: instantiating the characterization at `emptyStackState`
shows pick offered over an empty stack and right offered at the last column,
both as no-op transitions. -/
theorem getPossibleMoves_pick_right_exact_witness :
    "p" ∈ getPossibleMoves emptyStackState ∧
    "r" ∈ getPossibleMoves emptyStackState ∧
    newWorldState emptyStackState "p" = emptyStackState ∧
    newWorldState emptyStackState "r" = emptyStackState :=
  ⟨(getPossibleMoves_pick_right_exact emptyStackState).1.mpr rfl,
   (getPossibleMoves_pick_right_exact emptyStackState).2.1.mpr (by decide),
   (getPossibleMoves_pick_right_exact emptyStackState).2.2.1 (by rfl),
   (getPossibleMoves_pick_right_exact emptyStackState).2.2.2 (by rfl)⟩

/-- C10 witness: in `dropDemoState` the ball `b` is held by the arm (in no
stack), while `k` sits in the first stack, so `above(k, b)` and `under(b, k)`
both hold. -/
theorem above_under_of_absent_arg_witness :
    literalHolds ⟨true, "above", ["k", "b"]⟩ dropDemoState = true ∧
    literalHolds ⟨true, "under", ["b", "k"]⟩ dropDemoState = true :=
  above_under_of_absent_arg true true dropDemoState "k" "b" ["k"]
    (by decide) (by decide) (by decide)

/-! ### The updatable binary heap (Graph.ts, `Heap<T>`) -/

/-- `collections.arrays.swap`: exchange two positions; out-of-bounds indices
make it a no-op (the library returns `false` without touching the array). -/
def swapJS {T : Type} [Inhabited T] (data : List T) (i j : Nat) : List T :=
  if i < data.length ∧ j < data.length then
    (data.set i (data.getD j default)).set j (data.getD i default)
  else data

/-- `Heap.parentIndex`: `Math.floor((nodeIndex - 1) / 2)`. -/
def parentIdx (nodeIndex : Nat) : Nat := (nodeIndex - 1) / 2

/-- One unrolling of the `Heap.siftUp` loop: swap with the parent while the
parent compares greater.  The first argument bounds the number of remaining
iterations; the loop index strictly decreases, so with fuel equal to the
starting index the bound never bites (at fuel zero the index is zero and the
loop guard is false anyway) and the function agrees with the JS loop on
every input while remaining structurally recursive. -/
def siftUpAux {T : Type} [Inhabited T] (cmp : T → T → Int) :
    Nat → List T → Nat → List T
  | 0, data, _ => data
  | Nat.succ fuel, data, index =>
    if 0 < index ∧ cmp (data.getD (parentIdx index) default) (data.getD index default) > 0 then
      siftUpAux cmp fuel (swapJS data (parentIdx index) index) (parentIdx index)
    else data

/-- `Heap.siftUp`: swap with the parent while the parent compares greater. -/
def siftUp {T : Type} [Inhabited T] (cmp : T → T → Int) (data : List T) (index : Nat) :
    List T :=
  siftUpAux cmp index data index

/-- `Heap.minIndex`: the smaller of two children, `none` when both are out of
range (`-1` in the source); when only the right child is out of range the
left one is returned. -/
def minIndex {T : Type} [Inhabited T] (cmp : T → T → Int) (data : List T)
    (leftChild rightChild : Nat) : Option Nat :=
  if rightChild ≥ data.length then
    if leftChild ≥ data.length then none else some leftChild
  else if cmp (data.getD leftChild default) (data.getD rightChild default) ≤ 0 then
    some leftChild
  else some rightChild

/-- The length is untouched by `swapJS`. -/
lemma swapJS_length {T : Type} [Inhabited T] (data : List T) (i j : Nat) :
    (swapJS data i j).length = data.length := by
  unfold swapJS
  split <;> simp

/-- Characterization of a successful `minIndex` on adjacent children. -/
lemma minIndex_some {T : Type} [Inhabited T] {cmp : T → T → Int} {data : List T}
    {l m : Nat} (h : minIndex cmp data l (l + 1) = some m) :
    m < data.length ∧ (m = l ∨ m = l + 1) := by
  unfold minIndex at h
  split_ifs at h with h1 h2 h3 <;> cases h <;> omega

/-- One unrolling of the `Heap.siftDown` loop.  The fuel bounds the
iterations; the node index strictly increases while staying below the
(unchanged) length, so fuel equal to the array length suffices: at fuel zero
the index is already past the last slot and `minIndex` would return `none`
anyway, so the function agrees with the JS loop on every input. -/
def siftDownAux {T : Type} [Inhabited T] (cmp : T → T → Int) :
    Nat → List T → Nat → List T
  | 0, data, _ => data
  | Nat.succ fuel, data, nodeIndex =>
    match minIndex cmp data (2 * nodeIndex + 1) (2 * nodeIndex + 2) with
    | none => data
    | some m =>
      if cmp (data.getD nodeIndex default) (data.getD m default) > 0 then
        siftDownAux cmp fuel (swapJS data m nodeIndex) m
      else data

/-- `Heap.siftDown`: swap with the smaller child while it compares smaller. -/
def siftDown {T : Type} [Inhabited T] (cmp : T → T → Int) (data : List T)
    (nodeIndex : Nat) : List T :=
  siftDownAux cmp data.length data nodeIndex

/-- `Heap.add`: push the element and sift it upwards from the last slot. -/
def heapAdd {T : Type} [Inhabited T] (cmp : T → T → Int) (data : List T) (element : T) :
    List T :=
  siftUp cmp (data ++ [element]) ((data ++ [element]).length - 1)

/-- `Heap.update` after an in-place key change: the caller mutates the element
stored at position `i` (as `aStarSearch` does through `setGCost`) and the heap
sifts that position upwards (`siftUp(this.data.indexOf(element))`). -/
def heapUpdate {T : Type} [Inhabited T] (cmp : T → T → Int) (data : List T) (i : Nat)
    (element : T) : List T :=
  siftUp cmp (data.set i element) i

/-- `Heap.removeRoot`: save the root, move the last element into slot 0,
remove the last slot, then sift down from the root; `undefined` (`none`) on an
empty heap. -/
def heapRemoveRoot {T : Type} [Inhabited T] (cmp : T → T → Int) (data : List T) :
    Option T × List T :=
  if data.length > 0 then
    let obj := data.getD 0 default
    let d1 := (data.set 0 (data.getD (data.length - 1) default)).dropLast
    (some obj, if d1.length > 0 then siftDown cmp d1 0 else d1)
  else (none, data)

/-- `Heap.getElement`: the first stored element satisfying the equality
predicate, `null` (`none`) when there is none. -/
def heapGetElement {T : Type} (equals : T → T → Bool) (data : List T) (element : T) :
    Option T :=
  data.find? (fun e => equals element e)

/-- `Heap.isEmpty`: `data.length <= 0`. -/
def heapIsEmpty {T : Type} (data : List T) : Bool :=
  data.length ≤ 0

/-! ### Heap correctness (C8): invariant and comparator laws -/

/-- `getD` after `set` at the same (in-range) position. -/
lemma getD_set_self {T : Type} [Inhabited T] (l : List T) (i : Nat) (v : T)
    (h : i < l.length) : (l.set i v).getD i default = v := by
  rw [List.getD_eq_getElem?_getD, List.getElem?_set_eq_of_lt v h]
  rfl

/-- `getD` after `set` at another position. -/
lemma getD_set_ne {T : Type} [Inhabited T] {l : List T} {i k : Nat} {v : T}
    (h : i ≠ k) : (l.set i v).getD k default = l.getD k default := by
  rw [List.getD_eq_getElem?_getD, List.getElem?_set_ne h, ← List.getD_eq_getElem?_getD]

/-- The value moved to the second swapped slot. -/
lemma swapJS_getD_snd {T : Type} [Inhabited T] (data : List T) {i j : Nat}
    (hi : i < data.length) (hj : j < data.length) :
    (swapJS data i j).getD j default = data.getD i default := by
  unfold swapJS
  rw [if_pos ⟨hi, hj⟩, getD_set_self _ _ _ (by simpa using hj)]

/-- The value moved to the first swapped slot. -/
lemma swapJS_getD_fst {T : Type} [Inhabited T] (data : List T) {i j : Nat}
    (hi : i < data.length) (hj : j < data.length) (hij : i ≠ j) :
    (swapJS data i j).getD i default = data.getD j default := by
  unfold swapJS
  rw [if_pos ⟨hi, hj⟩, getD_set_ne (Ne.symm hij), getD_set_self data i _ hi]

/-- Positions not involved in the swap keep their values. -/
lemma swapJS_getD_other {T : Type} [Inhabited T] (data : List T) {i j k : Nat}
    (hki : k ≠ i) (hkj : k ≠ j) :
    (swapJS data i j).getD k default = data.getD k default := by
  unfold swapJS
  split
  · rw [getD_set_ne (Ne.symm hkj), getD_set_ne (Ne.symm hki)]
  · rfl

/-- "`a` does not rank strictly below `b`" under a JS comparison function. -/
def notBelowRank {T : Type} (cmp : T → T → Int) (a b : T) : Prop :=
  ¬ cmp a b < 0

/-- The two facts about a comparison function the heap needs: transitivity of
`notBelowRank` and that `compare(a,b) <= 0` forbids `b` ranking strictly below
`a`.  Both hold for every rank-induced comparator, including the `fCost`
difference comparator of `aStarSearch` (whose ties break to `1`). -/
structure LawfulCmp {T : Type} (cmp : T → T → Int) : Prop where
  trans : ∀ a b c, notBelowRank cmp b a → notBelowRank cmp c b → notBelowRank cmp c a
  asymm : ∀ a b, ¬ cmp a b > 0 → notBelowRank cmp b a

/-- The binary-heap order invariant: no element ranks strictly below its
parent. -/
def HeapInv {T : Type} [Inhabited T] (cmp : T → T → Int) (data : List T) : Prop :=
  ∀ i : Nat, 0 < i → i < data.length →
    notBelowRank cmp (data.getD i default) (data.getD (parentIdx i) default)

/-- A heap that is ordered except possibly on the edge from `j` up to its
parent; additionally the children of `j` already respect `j`'s parent (the
bridging fact that keeps sift-up going). -/
def AlmostUp {T : Type} [Inhabited T] (cmp : T → T → Int) (data : List T) (j : Nat) : Prop :=
  (∀ c : Nat, 0 < c → c < data.length → c ≠ j →
    notBelowRank cmp (data.getD c default) (data.getD (parentIdx c) default)) ∧
  (∀ c : Nat, 0 < c → c < data.length → parentIdx c = j → 0 < j →
    notBelowRank cmp (data.getD c default) (data.getD (parentIdx j) default))

/-- A heap that is ordered except possibly on the edges from `i` down to its
children; additionally the children of `i` already respect `i`'s parent. -/
def AlmostDown {T : Type} [Inhabited T] (cmp : T → T → Int) (data : List T) (i : Nat) : Prop :=
  (∀ c : Nat, 0 < c → c < data.length → parentIdx c ≠ i →
    notBelowRank cmp (data.getD c default) (data.getD (parentIdx c) default)) ∧
  (∀ c : Nat, 0 < c → c < data.length → parentIdx c = i → 0 < i →
    notBelowRank cmp (data.getD c default) (data.getD (parentIdx i) default))

/-- `notBelowRank` is reflexive for a lawful comparator. -/
lemma LawfulCmp.refl {T : Type} {cmp : T → T → Int} (hc : LawfulCmp cmp) (a : T) :
    notBelowRank cmp a a := by
  by_contra h
  unfold notBelowRank at h
  push_neg at h
  exact hc.asymm a a (by omega) h

/-- The children of node `i` are exactly `2i+1` and `2i+2`. -/
lemma parentIdx_eq_iff (c i : Nat) (hc : 0 < c) :
    parentIdx c = i ↔ c = 2 * i + 1 ∨ c = 2 * i + 2 := by
  unfold parentIdx
  omega

/-- A fully ordered heap is in particular almost ordered at any position. -/
lemma HeapInv.almostUp {T : Type} [Inhabited T] {cmp : T → T → Int} {data : List T}
    (hc : LawfulCmp cmp) (hInv : HeapInv cmp data) (j : Nat) : AlmostUp cmp data j := by
  constructor
  · intro c hc0 hcl _
    exact hInv c hc0 hcl
  · intro c hc0 hcl hpc hj
    have h1 := hInv c hc0 hcl
    have h2 := hInv j hj (lt_of_le_of_lt (by unfold parentIdx at hpc; omega) hcl)
    rw [hpc] at h1
    exact hc.trans _ _ _ h2 h1

/-- `swapJS` is the identity when an index is out of range. -/
lemma swapJS_oob {T : Type} [Inhabited T] (data : List T) {i j : Nat}
    (h : ¬ (i < data.length ∧ j < data.length)) : swapJS data i j = data := by
  unfold swapJS
  rw [if_neg h]

/-- The parent sits strictly above its (positive) child. -/
lemma parentIdx_lt {j : Nat} (h : 0 < j) : parentIdx j < j := by
  unfold parentIdx
  omega

/-- When the sift-up loop stops, the heap is fully ordered. -/
lemma almostUp_heapInv_of_stop {T : Type} [Inhabited T] {cmp : T → T → Int}
    (hc : LawfulCmp cmp) {data : List T} {j : Nat} (hA : AlmostUp cmp data j)
    (hstop : ¬ (0 < j ∧ cmp (data.getD (parentIdx j) default) (data.getD j default) > 0)) :
    HeapInv cmp data := by
  intro c hc0 hcl
  by_cases hcj : c = j
  · subst hcj
    have hng : ¬ cmp (data.getD (parentIdx c) default) (data.getD c default) > 0 :=
      fun hgt => hstop ⟨hc0, hgt⟩
    exact hc.asymm _ _ hng
  · exact hA.1 c hc0 hcl hcj

/-- One sift-up swap keeps the heap almost ordered, with the violation moved
to the parent. -/
lemma almostUp_swap {T : Type} [Inhabited T] {cmp : T → T → Int} (hc : LawfulCmp cmp)
    {data : List T} {j : Nat} (hA : AlmostUp cmp data j) (hj : 0 < j)
    (hjlen : j < data.length)
    (hgt : cmp (data.getD (parentIdx j) default) (data.getD j default) > 0) :
    AlmostUp cmp (swapJS data (parentIdx j) j) (parentIdx j) := by
  have hpj : parentIdx j < j := parentIdx_lt hj
  have hplen : parentIdx j < data.length := lt_trans hpj hjlen
  have hnj : (swapJS data (parentIdx j) j).getD j default = data.getD (parentIdx j) default :=
    swapJS_getD_snd data hplen hjlen
  have hnp : (swapJS data (parentIdx j) j).getD (parentIdx j) default = data.getD j default :=
    swapJS_getD_fst data hplen hjlen (Nat.ne_of_lt hpj)
  have hno : ∀ k : Nat, k ≠ parentIdx j → k ≠ j →
      (swapJS data (parentIdx j) j).getD k default = data.getD k default :=
    fun k h1 h2 => swapJS_getD_other data h1 h2
  constructor
  · intro c hc0 hclen' hcp
    rw [swapJS_length] at hclen'
    by_cases hcj : c = j
    · subst hcj
      rw [hnj, hnp]
      unfold notBelowRank
      omega
    · by_cases hpcj : parentIdx c = j
      · rw [hno c hcp hcj, hpcj, hnj]
        exact hA.2 c hc0 hclen' hpcj hj
      · by_cases hpcp : parentIdx c = parentIdx j
        · have h1 : notBelowRank cmp (data.getD c default) (data.getD (parentIdx j) default) := by
            have h0 := hA.1 c hc0 hclen' hcj
            rw [hpcp] at h0
            exact h0
          have h2 : notBelowRank cmp (data.getD (parentIdx j) default)
              (data.getD j default) := by
            unfold notBelowRank
            omega
          rw [hno c hcp hcj, hpcp, hnp]
          exact hc.trans _ _ _ h2 h1
        · rw [hno c hcp hcj, hno (parentIdx c) hpcp hpcj]
          exact hA.1 c hc0 hclen' hcj
  · intro c hc0 hclen' hpcp hp0
    rw [swapJS_length] at hclen'
    have hppp : parentIdx (parentIdx j) ≠ parentIdx j := Nat.ne_of_lt (parentIdx_lt hp0)
    have hppj : parentIdx (parentIdx j) ≠ j :=
      Nat.ne_of_lt (lt_trans (parentIdx_lt hp0) hpj)
    by_cases hcj : c = j
    · rw [hcj, hnj, hno (parentIdx (parentIdx j)) hppp hppj]
      exact hA.1 (parentIdx j) hp0 hplen (Nat.ne_of_lt hpj)
    · have hcgt : parentIdx j < c := by
        rw [parentIdx_eq_iff c (parentIdx j) hc0] at hpcp
        omega
      have hcp : c ≠ parentIdx j := Nat.ne_of_gt hcgt
      have h1 : notBelowRank cmp (data.getD c default) (data.getD (parentIdx j) default) := by
        have h0 := hA.1 c hc0 hclen' hcj
        rw [hpcp] at h0
        exact h0
      have h2 := hA.1 (parentIdx j) hp0 hplen (Nat.ne_of_lt hpj)
      rw [hno c hcp hcj, hno (parentIdx (parentIdx j)) hppp hppj]
      exact hc.trans _ _ _ h2 h1

/-- Sifting up from an almost ordered position yields a fully ordered heap
(fuel version). -/
lemma siftUpAux_inv {T : Type} [Inhabited T] {cmp : T → T → Int} (hc : LawfulCmp cmp) :
    ∀ (fuel : Nat) (data : List T) (j : Nat), j ≤ fuel → AlmostUp cmp data j →
      HeapInv cmp (siftUpAux cmp fuel data j) := by
  intro fuel
  induction fuel with
  | zero =>
    intro data j hj hA
    exact almostUp_heapInv_of_stop hc hA (by omega)
  | succ fuel ih =>
    intro data j hj hA
    unfold siftUpAux
    split_ifs with h
    · have hple : parentIdx j ≤ fuel :=
        Nat.le_of_lt_succ (lt_of_lt_of_le (parentIdx_lt h.1) hj)
      by_cases hjlen : j < data.length
      · exact ih _ (parentIdx j) hple (almostUp_swap hc hA h.1 hjlen h.2)
      · have hInv : HeapInv cmp data := fun c hc0 hclen =>
          hA.1 c hc0 hclen (by omega)
        rw [swapJS_oob data (fun hh => hjlen hh.2)]
        exact ih data (parentIdx j) hple (hInv.almostUp hc _)
    · exact almostUp_heapInv_of_stop hc hA h

/-- Sifting up from an almost ordered position yields a fully ordered heap. -/
lemma siftUp_inv {T : Type} [Inhabited T] {cmp : T → T → Int} (hc : LawfulCmp cmp) :
    ∀ (j : Nat) (data : List T), AlmostUp cmp data j → HeapInv cmp (siftUp cmp data j) :=
  fun j data hA => siftUpAux_inv hc j data j (le_refl j) hA

/-- A failed `minIndex` (on adjacent children) means the left child is
already out of range. -/
lemma minIndex_none {T : Type} [Inhabited T] {cmp : T → T → Int} {data : List T}
    {l : Nat} (h : minIndex cmp data l (l + 1) = none) : data.length ≤ l := by
  unfold minIndex at h
  split_ifs at h <;> (try cases h) <;> omega

/-- The in-range child not selected by `minIndex` does not rank below the
selected one. -/
lemma minIndex_other {T : Type} [Inhabited T] {cmp : T → T → Int} (hc : LawfulCmp cmp)
    {data : List T} {l m : Nat} (h : minIndex cmp data l (l + 1) = some m) :
    ∀ c : Nat, (c = l ∨ c = l + 1) → c < data.length → c ≠ m →
      notBelowRank cmp (data.getD c default) (data.getD m default) := by
  unfold minIndex at h
  split_ifs at h with h1 h2 h3 <;> cases h
  · intro c hcor hclen hcm
    omega
  · intro c hcor hclen hcm
    have hc1 : c = l + 1 := by omega
    rw [hc1]
    exact hc.asymm _ _ (by omega)
  · intro c hcor hclen hcm
    have hc1 : c = l := by omega
    rw [hc1]
    unfold notBelowRank
    omega

/-- With both children out of range, an almost-down heap is fully ordered. -/
lemma almostDown_heapInv_no_children {T : Type} [Inhabited T] {cmp : T → T → Int}
    {data : List T} {i : Nat} (hA : AlmostDown cmp data i)
    (hlen : data.length ≤ 2 * i + 1) : HeapInv cmp data := by
  intro c hc0 hclen
  by_cases hpc : parentIdx c = i
  · exfalso
    rw [parentIdx_eq_iff c i hc0] at hpc
    omega
  · exact hA.1 c hc0 hclen hpc

/-- When the sift-down loop stops at a node not greater than its smaller
child, the heap is fully ordered. -/
lemma almostDown_heapInv_of_stop {T : Type} [Inhabited T] {cmp : T → T → Int}
    (hc : LawfulCmp cmp) {data : List T} {i m : Nat} (hA : AlmostDown cmp data i)
    (hm : minIndex cmp data (2 * i + 1) (2 * i + 2) = some m)
    (hstop : ¬ cmp (data.getD i default) (data.getD m default) > 0) :
    HeapInv cmp data := by
  have hmb := minIndex_some hm
  have hmi : notBelowRank cmp (data.getD m default) (data.getD i default) :=
    hc.asymm _ _ hstop
  intro c hc0 hclen
  by_cases hpc : parentIdx c = i
  · have hchild : c = 2 * i + 1 ∨ c = 2 * i + 2 := (parentIdx_eq_iff c i hc0).mp hpc
    by_cases hcm : c = m
    · rw [hpc, hcm]
      exact hmi
    · have hother := minIndex_other hc hm c (by omega) hclen hcm
      rw [hpc]
      exact hc.trans _ _ _ hmi hother
  · exact hA.1 c hc0 hclen hpc

/-- One sift-down swap keeps the heap almost ordered, with the violation
moved to the selected child. -/
lemma almostDown_swap {T : Type} [Inhabited T] {cmp : T → T → Int} (hc : LawfulCmp cmp)
    {data : List T} {i m : Nat} (hA : AlmostDown cmp data i)
    (hm : minIndex cmp data (2 * i + 1) (2 * i + 2) = some m)
    (hgt : cmp (data.getD i default) (data.getD m default) > 0) :
    AlmostDown cmp (swapJS data m i) m := by
  have hmb := minIndex_some hm
  have hmi : i < m := by omega
  have hilen : i < data.length := lt_trans hmi hmb.1
  have hm0 : 0 < m := by omega
  have hpm : parentIdx m = i := (parentIdx_eq_iff m i hm0).mpr hmb.2
  have hni : (swapJS data m i).getD i default = data.getD m default :=
    swapJS_getD_snd data hmb.1 hilen
  have hnm : (swapJS data m i).getD m default = data.getD i default :=
    swapJS_getD_fst data hmb.1 hilen (Nat.ne_of_gt hmi)
  have hno : ∀ k : Nat, k ≠ m → k ≠ i →
      (swapJS data m i).getD k default = data.getD k default :=
    fun k h1 h2 => swapJS_getD_other data h1 h2
  constructor
  · intro c hc0 hclen' hpcm
    rw [swapJS_length] at hclen'
    by_cases hcm : c = m
    · rw [hcm, hpm, hnm, hni]
      unfold notBelowRank
      omega
    · by_cases hci : c = i
      · have hpi : parentIdx i ≠ m := Nat.ne_of_lt (lt_trans (parentIdx_lt (by omega)) hmi)
        have hpi2 : parentIdx i ≠ i := Nat.ne_of_lt (parentIdx_lt (by omega))
        rw [hci, hni, hno (parentIdx i) hpi hpi2]
        exact hA.2 m hm0 hmb.1 hpm (by omega)
      · by_cases hpci : parentIdx c = i
        · rw [hno c hcm hci, hpci, hni]
          have hchild : c = 2 * i + 1 ∨ c = 2 * i + 2 := (parentIdx_eq_iff c i hc0).mp hpci
          exact minIndex_other hc hm c (by omega) hclen' hcm
        · rw [hno c hcm hci, hno (parentIdx c) hpcm hpci]
          exact hA.1 c hc0 hclen' hpci
  · intro c hc0 hclen' hpcm hm0'
    rw [swapJS_length] at hclen'
    have hcm : c ≠ m := by
      rw [parentIdx_eq_iff c m hc0] at hpcm
      omega
    have hci : c ≠ i := by
      rw [parentIdx_eq_iff c m hc0] at hpcm
      omega
    rw [hno c hcm hci, hpm, hni]
    have h0 := hA.1 c hc0 hclen' (by rw [hpcm]; exact Nat.ne_of_gt hmi)
    rw [hpcm] at h0
    exact h0

/-- Sifting down from an almost ordered position yields a fully ordered heap
(fuel version). -/
lemma siftDownAux_inv {T : Type} [Inhabited T] {cmp : T → T → Int} (hc : LawfulCmp cmp) :
    ∀ (fuel : Nat) (data : List T) (i : Nat), data.length ≤ i + fuel →
      AlmostDown cmp data i → HeapInv cmp (siftDownAux cmp fuel data i) := by
  intro fuel
  induction fuel with
  | zero =>
    intro data i hk hA
    show HeapInv cmp data
    exact almostDown_heapInv_no_children hA (by omega)
  | succ fuel ih =>
    intro data i hk hA
    unfold siftDownAux
    split
    · next hm => exact almostDown_heapInv_no_children hA (minIndex_none hm)
    · next m hm =>
      split_ifs with hgt
      · have hmb := minIndex_some hm
        apply ih (swapJS data m i) m
        · rw [swapJS_length]
          omega
        · exact almostDown_swap hc hA hm hgt
      · exact almostDown_heapInv_of_stop hc hA hm hgt

/-- Sifting down from an almost ordered position yields a fully ordered
heap. -/
lemma siftDown_inv {T : Type} [Inhabited T] {cmp : T → T → Int} (hc : LawfulCmp cmp) :
    ∀ (data : List T) (i : Nat), AlmostDown cmp data i →
      HeapInv cmp (siftDown cmp data i) :=
  fun data i hA => siftDownAux_inv hc data.length data i (by omega) hA

/-- `getD` on the left part of an append. -/
lemma getD_append_left {T : Type} [Inhabited T] {data : List T} {x : T} {k : Nat}
    (h : k < data.length) : (data ++ [x]).getD k default = data.getD k default := by
  rw [List.getD_eq_getElem?_getD, List.getElem?_append_left h, ← List.getD_eq_getElem?_getD]

/-- `Heap.add` preserves the heap invariant. -/
lemma heapAdd_inv {T : Type} [Inhabited T] {cmp : T → T → Int} (hc : LawfulCmp cmp)
    {data : List T} (hInv : HeapInv cmp data) (x : T) :
    HeapInv cmp (heapAdd cmp data x) := by
  unfold heapAdd
  apply siftUp_inv hc
  have hlen : (data ++ [x]).length = data.length + 1 := by simp
  constructor
  · intro c hc0 hclen hcj
    rw [hlen] at hclen
    rw [List.length_append, List.length_cons, List.length_nil] at hcj
    have hclt : c < data.length := by omega
    have hplt : parentIdx c < data.length := lt_of_le_of_lt (le_of_lt (parentIdx_lt hc0)) hclt
    rw [getD_append_left hclt, getD_append_left hplt]
    exact hInv c hc0 hclt
  · intro c hc0 hclen hpc _
    rw [hlen] at hclen
    rw [List.length_append, List.length_cons, List.length_nil] at hpc
    rw [parentIdx_eq_iff c _ hc0] at hpc
    omega

/-- `Heap.update` after an in-place key decrease preserves the heap
invariant.  The hypothesis `¬ cmp x old > 0` says the new element does not
rank above the one it replaces — the key-decrease discipline of the claim
(and the only way `aStarSearch` ever calls `update`). -/
lemma heapUpdate_inv {T : Type} [Inhabited T] {cmp : T → T → Int} (hc : LawfulCmp cmp)
    {data : List T} (hInv : HeapInv cmp data) {i : Nat} {x : T} (hi : i < data.length)
    (hdec : ¬ cmp x (data.getD i default) > 0) :
    HeapInv cmp (heapUpdate cmp data i x) := by
  unfold heapUpdate
  apply siftUp_inv hc
  have hxold : notBelowRank cmp (data.getD i default) x := hc.asymm _ _ hdec
  constructor
  · intro c hc0 hclen hcj
    rw [List.length_set] at hclen
    rw [getD_set_ne (fun hh => hcj hh.symm)]
    by_cases hpc : parentIdx c = i
    · rw [hpc, getD_set_self data i x hi]
      have h1 := hInv c hc0 hclen
      rw [hpc] at h1
      exact hc.trans _ _ _ hxold h1
    · rw [getD_set_ne (fun hh => hpc hh.symm)]
      exact hInv c hc0 hclen
  · intro c hc0 hclen hpc hi0
    rw [List.length_set] at hclen
    have hci : c ≠ i := by
      rw [parentIdx_eq_iff c i hc0] at hpc
      omega
    have hpi : parentIdx i ≠ i := Nat.ne_of_lt (parentIdx_lt hi0)
    rw [getD_set_ne (fun hh => hci hh.symm), getD_set_ne (fun hh => hpi hh.symm)]
    have h1 := hInv c hc0 hclen
    rw [hpc] at h1
    have h2 := hInv i hi0 hi
    exact hc.trans _ _ _ h2 h1

/-- Positions above the root survive the root-removal shuffle unchanged. -/
lemma removeRoot_rest_getD {T : Type} [Inhabited T] (data : List T) (v : T) {k : Nat}
    (hk0 : 0 < k) (hk : k < data.length - 1) :
    ((data.set 0 v).dropLast).getD k default = data.getD k default := by
  rw [List.getD_eq_getElem?_getD, List.getElem?_dropLast, List.length_set, if_pos hk,
    List.getElem?_set_ne (by omega), ← List.getD_eq_getElem?_getD]

/-- `Heap.removeRoot` preserves the heap invariant on the remaining
elements. -/
lemma heapRemoveRoot_inv {T : Type} [Inhabited T] {cmp : T → T → Int} (hc : LawfulCmp cmp)
    {data : List T} (hInv : HeapInv cmp data) :
    HeapInv cmp (heapRemoveRoot cmp data).2 := by
  unfold heapRemoveRoot
  split_ifs with hlen
  · show HeapInv cmp
      (if ((data.set 0 (data.getD (data.length - 1) default)).dropLast).length > 0 then
        siftDown cmp ((data.set 0 (data.getD (data.length - 1) default)).dropLast) 0
      else (data.set 0 (data.getD (data.length - 1) default)).dropLast)
    have hd1len : ((data.set 0 (data.getD (data.length - 1) default)).dropLast).length =
        data.length - 1 := by
      rw [List.length_dropLast, List.length_set]
    split_ifs with hpos
    · apply siftDown_inv hc _ 0
      constructor
      · intro c hc0 hclen hpc
        rw [hd1len] at hclen
        have hpc1 : 0 < parentIdx c := Nat.pos_of_ne_zero hpc
        have hplt : parentIdx c < c := parentIdx_lt hc0
        rw [removeRoot_rest_getD data _ hc0 hclen,
          removeRoot_rest_getD data _ hpc1 (by omega)]
        exact hInv c hc0 (by omega)
      · intro c _ _ _ h0
        exact absurd h0 (lt_irrefl 0)
    · intro i h0 hl
      omega
  · exact hInv

/-- In an ordered heap no element ranks strictly below the root. -/
lemma heapInv_root_min {T : Type} [Inhabited T] {cmp : T → T → Int} (hc : LawfulCmp cmp)
    {data : List T} (hInv : HeapInv cmp data) :
    ∀ i : Nat, i < data.length →
      notBelowRank cmp (data.getD i default) (data.getD 0 default) := by
  intro i
  induction i using Nat.strong_induction_on with
  | _ i ih =>
    intro hi
    rcases Nat.eq_zero_or_pos i with h0 | h0
    · rw [h0]
      exact hc.refl _
    · exact hc.trans _ _ _
        (ih (parentIdx i) (parentIdx_lt h0) (lt_trans (parentIdx_lt h0) hi))
        (hInv i h0 hi)

/-- The operations of the heap-correctness claim: insertions, in-place key
decreases (re-ordered through `update`/`siftUp`), and root extractions. -/
inductive HeapOp (T : Type) where
  | add (element : T)
  | decreaseKey (i : Nat) (element : T)
  | extractMin

/-- Apply one operation through the source heap functions.  A `decreaseKey`
whose index is dead or whose new element would rank above the old one is
outside the claim's contract and leaves the heap untouched. -/
def applyOp {T : Type} [Inhabited T] (cmp : T → T → Int) (data : List T) :
    HeapOp T → List T
  | HeapOp.add x => heapAdd cmp data x
  | HeapOp.decreaseKey i x =>
    if i < data.length ∧ ¬ cmp x (data.getD i default) > 0 then heapUpdate cmp data i x
    else data
  | HeapOp.extractMin => (heapRemoveRoot cmp data).2

/-- Run a whole operation sequence from the empty heap. -/
def applyOps {T : Type} [Inhabited T] (cmp : T → T → Int) (ops : List (HeapOp T)) :
    List T :=
  ops.foldl (applyOp cmp) []

/-- Every operation preserves the heap invariant. -/
lemma applyOp_inv {T : Type} [Inhabited T] {cmp : T → T → Int} (hc : LawfulCmp cmp)
    {data : List T} (hInv : HeapInv cmp data) (op : HeapOp T) :
    HeapInv cmp (applyOp cmp data op) := by
  cases op with
  | add x => exact heapAdd_inv hc hInv x
  | decreaseKey i x =>
    show HeapInv cmp (if i < data.length ∧ ¬ cmp x (data.getD i default) > 0 then
      heapUpdate cmp data i x else data)
    split_ifs with h
    · exact heapUpdate_inv hc hInv h.1 h.2
    · exact hInv
  | extractMin => exact heapRemoveRoot_inv hc hInv

/-- The heap built by any operation sequence is ordered. -/
lemma applyOps_inv {T : Type} [Inhabited T] {cmp : T → T → Int} (hc : LawfulCmp cmp)
    (ops : List (HeapOp T)) : HeapInv cmp (applyOps cmp ops) := by
  have hgen : ∀ (l : List (HeapOp T)) (data : List T), HeapInv cmp data →
      HeapInv cmp (l.foldl (applyOp cmp) data) := by
    intro l
    induction l with
    | nil => intro data h; exact h
    | cons op rest ih => intro data h; exact ih _ (applyOp_inv hc h op)
  exact hgen ops [] (fun i h0 hl => by simp at hl)

/-- C8: after any sequence of `add` and key-decrease `update` operations
(with `removeRoot` extractions freely interleaved), `removeRoot` on a
non-empty heap returns an element of the heap that no stored element ranks
strictly below — the same element a sorted-list reference implementation
would serve first (up to rank ties).  `LawfulCmp` states the two order facts
any ranking comparator satisfies, including the strict `fCost` comparator of
`aStarSearch`. -/
theorem heap_extractMin_min {T : Type} [Inhabited T] (cmp : T → T → Int)
    (hc : LawfulCmp cmp) (ops : List (HeapOp T)) (hne : applyOps cmp ops ≠ []) :
    ∃ m : T, (heapRemoveRoot cmp (applyOps cmp ops)).1 = some m ∧
      m ∈ applyOps cmp ops ∧ ∀ x ∈ applyOps cmp ops, ¬ cmp x m < 0 := by
  have hInv := applyOps_inv hc ops
  have hlen : 0 < (applyOps cmp ops).length := List.length_pos.mpr hne
  refine ⟨(applyOps cmp ops).getD 0 default, ?_, ?_, ?_⟩
  · unfold heapRemoveRoot
    rw [if_pos hlen]
  · rw [List.getD_eq_getElem (applyOps cmp ops) default hlen]
    exact List.getElem_mem hlen
  · intro x hx
    rcases List.mem_iff_getElem.mp hx with ⟨n, hn, hxn⟩
    have hmin := heapInv_root_min hc hInv n hn
    rw [List.getD_eq_getElem (applyOps cmp ops) default hn, hxn] at hmin
    exact hmin

/-- A plain integer difference comparator, used to instantiate the witness. -/
def intSub (a b : Int) : Int := a - b

/-- The integer difference comparator is lawful. -/
lemma lawfulCmp_intSub : LawfulCmp intSub := by
  constructor
  · intro a b c h1 h2
    unfold notBelowRank intSub at h1 h2 ⊢
    omega
  · intro a b h
    unfold intSub at h
    unfold notBelowRank intSub
    omega

/-- C8 witness: a concrete run — insert 5, 2, 7, decrease the 7 in place to
1, extract the minimum, insert 4 — leaves the heap `[2, 5, 4]`, and
`removeRoot` serves the genuine minimum 2. -/
theorem heap_extractMin_min_witness :
    ∃ m : Int, (heapRemoveRoot intSub
        (applyOps intSub
          [HeapOp.add 5, HeapOp.add 2, HeapOp.add 7, HeapOp.decreaseKey 2 1,
           HeapOp.extractMin, HeapOp.add 4])).1 = some m ∧
      m ∈ applyOps intSub
          [HeapOp.add 5, HeapOp.add 2, HeapOp.add 7, HeapOp.decreaseKey 2 1,
           HeapOp.extractMin, HeapOp.add 4] ∧
      ∀ x ∈ applyOps intSub
          [HeapOp.add 5, HeapOp.add 2, HeapOp.add 7, HeapOp.decreaseKey 2 1,
           HeapOp.extractMin, HeapOp.add 4], ¬ intSub x m < 0 :=
  heap_extractMin_min intSub lawfulCmp_intSub
    [HeapOp.add 5, HeapOp.add 2, HeapOp.add 7, HeapOp.decreaseKey 2 1,
     HeapOp.extractMin, HeapOp.add 4] (by decide)

/-! ### Frame property of `newWorldState` (C9): an explicit-store model

The pure value embedding above cannot express mutation, so the cloning
behaviour of `newWorldState` is modelled once more against an explicit store
of JS arrays: `Store` holds the contents of every allocated array, and a
world state holds the store indices of its stack arrays.  `newWorldState`
first allocates a fresh array per stack (the element-wise copy loop), then
mutates only the fresh arrays and the fields of the freshly built object. -/

/-- The JS heap restricted to string arrays: index = allocation order. -/
abbrev Store := List (List String)

/-- A world state as the JS engine sees it: stack-array references plus the
scalar fields (the shared, never-mutated `objects`/`examples` references are
omitted as no store entry of theirs is ever written). -/
structure WorldStateRef where
  stackIds : List Nat
  holding : Option String
  arm : Int
deriving DecidableEq, Repr

/-- Dereference a state's stacks in a store. -/
def readStacks (st : Store) (s : WorldStateRef) : List (List String) :=
  s.stackIds.map (fun i => st.getD i [])

/-- The cloning loop of `newWorldState`: for each stack allocate a fresh
array with the same contents, returning the grown store and the fresh ids. -/
def cloneStacks (st : Store) (ids : List Nat) : Store × List Nat :=
  ids.foldl (fun p i => (p.1 ++ [st.getD i []], p.2 ++ [p.1.length])) (st, [])

/-- Reference into a list of array ids by the (integer) arm column. -/
def idAt (ids : List Nat) (arm : Int) : Option Nat :=
  if 0 ≤ arm then ids.get? arm.toNat else none

/-- `newWorldState` against the explicit store.  The moves mutate only the
freshly allocated arrays (`d` pushes onto, `p` pops from the stack under the
arm) and the fresh object's scalar fields; an out-of-range arm would make JS
throw before mutating anything, which the `none` branches mirror by leaving
the store unchanged. -/
def newWorldStateRef (st : Store) (s : WorldStateRef) (move : String) :
    Store × WorldStateRef :=
  let cloned := cloneStacks st s.stackIds
  let st1 := cloned.1
  let newState : WorldStateRef := ⟨cloned.2, s.holding, s.arm⟩
  match move with
  | "l" =>
    (st1, if newState.arm > 0 then { newState with arm := newState.arm - 1 } else newState)
  | "r" =>
    (st1,
      if newState.arm < (newState.stackIds.length : Int) - 1 then
        { newState with arm := newState.arm + 1 }
      else newState)
  | "d" =>
    match idAt newState.stackIds s.arm with
    | some id =>
      (st1.set id (st1.getD id [] ++ [newState.holding.getD ""]),
        { newState with holding := some "" })
    | none => (st1, newState)
  | "p" =>
    match idAt newState.stackIds s.arm with
    | some id =>
      if (st1.getD id []).length > 0 then
        (st1.set id (st1.getD id []).dropLast,
          { newState with holding := some ((st1.getD id []).getLastD "") })
      else (st1, newState)
    | none => (st1, newState)
  | _ => (st1, newState)

/-- The cloning loop only appends to the store, and every id it hands out
points past the original store. -/
lemma cloneStacks_go (st : Store) (ids : List Nat) :
    ∀ (acc : Store) (out : List Nat),
      ∃ (tail : Store) (gen : List Nat),
        ids.foldl (fun p i => (p.1 ++ [st.getD i []], p.2 ++ [p.1.length])) (acc, out) =
          (acc ++ tail, out ++ gen) ∧ ∀ x ∈ gen, acc.length ≤ x := by
  induction ids with
  | nil =>
    intro acc out
    exact ⟨[], [], by simp, by simp⟩
  | cons i rest ih =>
    intro acc out
    rcases ih (acc ++ [st.getD i []]) (out ++ [acc.length]) with ⟨tail, gen, heq, hge⟩
    refine ⟨[st.getD i []] ++ tail, [acc.length] ++ gen, ?_, ?_⟩
    · rw [List.foldl_cons, heq]
      simp
    · intro x hx
      rcases List.mem_append.mp hx with h | h
      · simp at h
        omega
      · have h2 := hge x h
        simp at h2
        omega

/-- `cloneStacks` in closed form: appended store, fresh ids. -/
lemma cloneStacks_spec (st : Store) (ids : List Nat) :
    ∃ (tail : Store) (gen : List Nat),
      cloneStacks st ids = (st ++ tail, gen) ∧ ∀ x ∈ gen, st.length ≤ x := by
  rcases cloneStacks_go st ids st [] with ⟨tail, gen, heq, hge⟩
  exact ⟨tail, gen, by rw [cloneStacks, heq]; simp, hge⟩

/-- Old store entries survive an append. -/
lemma getD_store_append (st tail : Store) {i : Nat} (h : i < st.length) :
    (st ++ tail).getD i [] = st.getD i [] := by
  rw [List.getD_eq_getElem?_getD, List.getElem?_append_left h, ← List.getD_eq_getElem?_getD]

/-- Old store entries survive a write at a fresh id. -/
lemma getD_store_set_fresh (st1 : Store) {id i : Nat} (v : List String) (h : i ≠ id) :
    (st1.set id v).getD i [] = st1.getD i [] := by
  rw [List.getD_eq_getElem?_getD, List.getElem?_set_ne (fun hh => h hh.symm),
    ← List.getD_eq_getElem?_getD]

/-- The store after `newWorldStateRef` is the cloned store, possibly with a
single write at one of the freshly allocated ids. -/
lemma newWorldStateRef_store_cases (st : Store) (s : WorldStateRef) (move : String) :
    (newWorldStateRef st s move).1 = (cloneStacks st s.stackIds).1 ∨
    ∃ (id : Nat) (v : List String), id ∈ (cloneStacks st s.stackIds).2 ∧
      (newWorldStateRef st s move).1 = ((cloneStacks st s.stackIds).1).set id v := by
  unfold newWorldStateRef
  dsimp only
  split
  · exact Or.inl rfl
  · exact Or.inl rfl
  · split
    · next id hid =>
      refine Or.inr ⟨id, _, ?_, rfl⟩
      unfold idAt at hid
      split_ifs at hid
      · exact List.get?_mem hid
    · exact Or.inl rfl
  · split
    · next id hid =>
      split_ifs
      · refine Or.inr ⟨id, _, ?_, rfl⟩
        unfold idAt at hid
        split_ifs at hid
        · exact List.get?_mem hid
      · exact Or.inl rfl
    · exact Or.inl rfl
  · exact Or.inl rfl

/-- The snapshot returned by `newWorldStateRef` always carries exactly the
freshly allocated stack ids. -/
lemma newWorldStateRef_stackIds (st : Store) (s : WorldStateRef) (move : String) :
    (newWorldStateRef st s move).2.stackIds = (cloneStacks st s.stackIds).2 := by
  unfold newWorldStateRef
  dsimp only
  split
  · split_ifs <;> rfl
  · split_ifs <;> rfl
  · split <;> rfl
  · split
    · split_ifs <;> rfl
    · rfl
  · rfl

/-- C9: `newWorldState` never mutates its input state.  In the explicit-store
model: every array the original store holds is unchanged by the call (the
clone loop only allocates, and the `d`/`p` mutations hit only freshly
allocated arrays), so the dereferenced original state reads back exactly as
before, and the returned snapshot's stack arrays are all fresh allocations —
disjoint from every array reachable from the input.  The scalar fields of
the input (`arm`, `holding`) are never assigned by the source either: only
`newState.*` fields are written. -/
theorem newWorldState_frame (st : Store) (s : WorldStateRef) (move : String)
    (hids : ∀ id ∈ s.stackIds, id < st.length) :
    (∀ i : Nat, i < st.length →
      (newWorldStateRef st s move).1.getD i [] = st.getD i []) ∧
    readStacks (newWorldStateRef st s move).1 s = readStacks st s ∧
    (∀ id ∈ (newWorldStateRef st s move).2.stackIds, st.length ≤ id) := by
  rcases cloneStacks_spec st s.stackIds with ⟨tail, gen, hclone, hgen⟩
  have h1 : (cloneStacks st s.stackIds).1 = st ++ tail := by rw [hclone]
  have h2 : (cloneStacks st s.stackIds).2 = gen := by rw [hclone]
  have hpres : ∀ i : Nat, i < st.length →
      (newWorldStateRef st s move).1.getD i [] = st.getD i [] := by
    intro i hi
    rcases newWorldStateRef_store_cases st s move with hcase | ⟨id, v, hid, hcase⟩
    · rw [hcase, h1]
      exact getD_store_append st tail hi
    · rw [h2] at hid
      have hfresh : st.length ≤ id := hgen id hid
      rw [hcase, h1, getD_store_set_fresh _ _ (by omega)]
      exact getD_store_append st tail hi
  refine ⟨hpres, ?_, ?_⟩
  · unfold readStacks
    exact List.map_congr_left (fun id hid => hpres id (hids id hid))
  · rw [newWorldStateRef_stackIds, h2]
    exact hgen

/-- C9 witness: dropping the held ball in a two-stack world writes only the
fresh copies; the two original arrays read back unchanged and the snapshot
points past them. -/
theorem newWorldState_frame_witness :
    (∀ i : Nat, i < 2 →
      (newWorldStateRef [["k"], []] ⟨[0, 1], some "b", 0⟩ "d").1.getD i [] =
        ([["k"], []] : Store).getD i []) ∧
    readStacks (newWorldStateRef [["k"], []] ⟨[0, 1], some "b", 0⟩ "d").1
        ⟨[0, 1], some "b", 0⟩ =
      readStacks [["k"], []] ⟨[0, 1], some "b", 0⟩ ∧
    (∀ id ∈ (newWorldStateRef [["k"], []] ⟨[0, 1], some "b", 0⟩ "d").2.stackIds,
      2 ≤ id) :=
  newWorldState_frame [["k"], []] ⟨[0, 1], some "b", 0⟩ "d" (by decide)

/-! ### The A* search engine (Graph.ts, `aStarSearch`)

The engine is generic over the node type, the edge generator, the node
comparison (`graph.compareNodes`), and a key-equality predicate modelling the
`toString`-keyed `collections.Set`/`Dictionary` (for `StateNode`s the string
is the `JSON.stringify` of the node, whose equality coincides with structural
equality).  Wall-clock sampling (`startTime + Date.now()`) is modelled by a
`clock` giving the elapsed milliseconds at each loop iteration, and the
possibly endless `while` loop by an explicit iteration budget `fuel`: `none`
means the modelled run was cut off, `some` faithfully reports the JS result
or thrown error. -/

/-- `CostNode`: a node with its g-cost and heuristic; the stored `fCost`
field, kept in sync by `setGCost`, is recovered by `fCost` below. -/
structure CostNode (Node : Type) where
  node : Node
  gCost : Int
  hCost : Int
deriving Repr

instance {Node : Type} [Inhabited Node] : Inhabited (CostNode Node) :=
  ⟨⟨default, 0, 0⟩⟩

/-- `fCost = gCost + hCost` (constructor and `setGCost` maintain this). -/
def fCost {Node : Type} (c : CostNode Node) : Int := c.gCost + c.hCost

/-- `compareFValue`: the f-cost difference, with ties broken to `1` ("they
are never the same"). -/
def compareFValue {Node : Type} (first second : CostNode Node) : Int :=
  if fCost first - fCost second ≠ 0 then fCost first - fCost second else 1

/-- `SearchResult`: the path of nodes and its total cost. -/
structure SearchResult (Node : Type) where
  path : List Node
  cost : Int
deriving Repr

/-- `collections.Set.contains`, membership through the key equality. -/
def setContains {Node : Type} (keyEq : Node → Node → Bool) (closed : List Node)
    (n : Node) : Bool :=
  closed.any (keyEq n)

/-- `collections.Set.add` (no duplicates). -/
def setAdd {Node : Type} (keyEq : Node → Node → Bool) (closed : List Node)
    (n : Node) : List Node :=
  if setContains keyEq closed n then closed else closed ++ [n]

/-- `Dictionary.getValue`, keyed by the node of the stored `CostNode` (its
`toString`). -/
def dictGet {Node : Type} (keyEq : Node → Node → Bool)
    (preds : List (Node × CostNode Node)) (k : Node) : Option (CostNode Node) :=
  (preds.find? (fun p => keyEq k p.1)).map (·.2)

/-- `Dictionary.setValue`: replace the entry under the key or append it. -/
def dictSet {Node : Type} (keyEq : Node → Node → Bool)
    (preds : List (Node × CostNode Node)) (k : Node) (v : CostNode Node) :
    List (Node × CostNode Node) :=
  match preds.findIdx? (fun p => keyEq k p.1) with
  | some i => preds.set i (k, v)
  | none => preds ++ [(k, v)]

/-- The path-collection loop of the goal branch: add the current node, follow
the predecessor link, stop once the start node is in the list.  A missing
predecessor makes the next `path.add(currentNode.node)` throw in JS unless
the loop has already terminated.  The fuel (instantiated with
`preds.length + 2`, enough for any terminating chain) models the possible
divergence of a cyclic predecessor chain as `none`. -/
def reconstructPath {Node : Type} (keyEq : Node → Node → Bool)
    (preds : List (Node × CostNode Node)) (start : Node) :
    Nat → CostNode Node → List Node → Option (Except String (List Node))
  | 0, _, _ => none
  | Nat.succ fuel, current, path =>
    if path.any (keyEq start) then some (Except.ok path)
    else
      match dictGet keyEq preds current.node with
      | some p => reconstructPath keyEq preds start fuel p (path ++ [current.node])
      | none =>
        if (path ++ [current.node]).any (keyEq start) then
          some (Except.ok (path ++ [current.node]))
        else some (Except.error "TypeError: cannot read node of undefined")

/-- The neighbour loop of `aStarSearch`: for every outgoing edge whose target
is not closed, either insert a fresh `CostNode` (querying the heuristic,
which may throw) or — when the known g-cost improves — decrease the stored
node's key in place and sift it up.  `findIdx?` with `costNodesEqual` models
`getElement` plus the `indexOf` of the subsequent `update` (references are
unique in the heap array). -/
def expandEdges {Node : Type} [Inhabited Node] (compareNodes' : Node → Node → Int)
    (keyEq : Node → Node → Bool) (heuristics' : Node → Except String Int)
    (current : CostNode Node) (closed : List Node) :
    List (Edge Node) → List (CostNode Node) → List (Node × CostNode Node) →
      Except String (List (CostNode Node) × List (Node × CostNode Node))
  | [], openNodes, preds => Except.ok (openNodes, preds)
  | e :: rest, openNodes, preds =>
    if setContains keyEq closed e.to' then
      expandEdges compareNodes' keyEq heuristics' current closed rest openNodes preds
    else
      match openNodes.findIdx? (fun el => compareNodes' e.to' el.node == 0) with
      | none => do
        let h ← heuristics' e.to'
        let node : CostNode Node := ⟨e.to', current.gCost + e.cost, h⟩
        expandEdges compareNodes' keyEq heuristics' current closed rest
          (heapAdd compareFValue openNodes node) (dictSet keyEq preds e.to' current)
      | some i =>
        let node := openNodes.getD i default
        if current.gCost + e.cost < node.gCost then
          expandEdges compareNodes' keyEq heuristics' current closed rest
            (heapUpdate compareFValue openNodes i
              { node with gCost := current.gCost + e.cost })
            (dictSet keyEq preds node.node current)
        else
          expandEdges compareNodes' keyEq heuristics' current closed rest openNodes preds

/-- The main `while (!openNodes.isEmpty())` loop.  Per iteration: if the open
heap is empty the initial result `{path: [start], cost: 0}` is returned; the
elapsed clock is checked against the budget before the pop (`Timeout`
throw); then the minimum-f node is popped, closed, goal-tested (path
reconstruction on success) and expanded. -/
def aStarLoop {Node : Type} [Inhabited Node] (outgoing : Node → List (Edge Node))
    (compareNodes' : Node → Node → Int) (keyEq : Node → Node → Bool) (start : Node)
    (goal : Node → Bool) (heuristics' : Node → Except String Int) (budget : Int)
    (clock : Nat → Nat) :
    Nat → Nat → List (CostNode Node) → List Node → List (Node × CostNode Node) →
      Option (Except String (SearchResult Node))
  | 0, _, _, _, _ => none
  | Nat.succ fuel, iter, openNodes, closed, preds =>
    if heapIsEmpty openNodes then some (Except.ok ⟨[start], 0⟩)
    else if ¬ ((clock iter : Int) < budget) then some (Except.error "Search Timed Out")
    else
      match heapRemoveRoot compareFValue openNodes with
      | (none, _) => some (Except.error "unreachable: pop from a non-empty heap")
      | (some current, openNodes') =>
        let closed' := setAdd keyEq closed current.node
        if goal current.node then
          match reconstructPath keyEq preds start (preds.length + 2) current [] with
          | none => none
          | some (Except.error e) => some (Except.error e)
          | some (Except.ok path) =>
            some (Except.ok ⟨path.reverse, current.gCost⟩)
        else
          match expandEdges compareNodes' keyEq heuristics' current closed'
              (outgoing current.node) openNodes' preds with
          | Except.error e => some (Except.error e)
          | Except.ok (openNodes'', preds') =>
            aStarLoop outgoing compareNodes' keyEq start goal heuristics' budget clock
              fuel (iter + 1) openNodes'' closed' preds'

/-- `aStarSearch` (Graph.ts, first module): seconds-to-milliseconds budget,
the start node at g = h = 0 recorded as its own predecessor and pushed onto
the open heap, then the loop. -/
def aStarSearch {Node : Type} [Inhabited Node] (outgoing : Node → List (Edge Node))
    (compareNodes' : Node → Node → Int) (keyEq : Node → Node → Bool) (start : Node)
    (goal : Node → Bool) (heuristics' : Node → Except String Int) (timeout : Int)
    (clock : Nat → Nat) (fuel : Nat) : Option (Except String (SearchResult Node)) :=
  aStarLoop outgoing compareNodes' keyEq start goal heuristics' (timeout * 1000) clock
    fuel 0 (heapAdd compareFValue [] ⟨start, 0, 0⟩) []
    (dictSet keyEq [] start ⟨start, 0, 0⟩)

/-- C6: with a timeout of 0, the very first loop iteration throws
`Search Timed Out` before any pop — regardless of the graph, the goal
predicate (even one satisfied by the start node), the heuristic and the
clock, since the elapsed time is a non-negative number of milliseconds and
the check runs before each pop. -/
theorem aStar_timeout_zero {Node : Type} [Inhabited Node]
    (outgoing : Node → List (Edge Node)) (compareNodes' : Node → Node → Int)
    (keyEq : Node → Node → Bool) (start : Node) (goal : Node → Bool)
    (heuristics' : Node → Except String Int) (clock : Nat → Nat) (fuel : Nat)
    (hfuel : 0 < fuel) :
    aStarSearch outgoing compareNodes' keyEq start goal heuristics' 0 clock fuel =
      some (Except.error "Search Timed Out") := by
  obtain ⟨f, rfl⟩ : ∃ f, fuel = f + 1 := ⟨fuel - 1, by omega⟩
  unfold aStarSearch aStarLoop
  have hopen : heapAdd compareFValue [] (⟨start, 0, 0⟩ : CostNode Node) =
      [⟨start, 0, 0⟩] := rfl
  rw [hopen]
  have hne : heapIsEmpty [(⟨start, 0, 0⟩ : CostNode Node)] = false := rfl
  rw [hne]
  have htime : ¬ ((clock 0 : Int) < 0 * 1000) := by
    have : (0 : Int) ≤ (clock 0 : Int) := Int.ofNat_nonneg _
    omega
  simp only [Bool.false_eq_true, if_false, htime, not_false_eq_true, if_true, if_pos]

/-- C6 witness: the empty one-node graph with a goal-satisfying start node
still times out under a zero budget. -/
theorem aStar_timeout_zero_witness :
    aStarSearch (fun _ : Nat => ([] : List (Edge Nat))) (fun a b => (a : Int) - b)
      (fun a b => a == b) 0 (fun _ => true) (fun _ => Except.ok 0) 0 (fun _ => 7) 1 =
      some (Except.error "Search Timed Out") :=
  aStar_timeout_zero (fun _ : Nat => ([] : List (Edge Nat))) (fun a b => (a : Int) - b)
    (fun a b => a == b) 0 (fun _ => true) (fun _ => Except.ok 0) (fun _ => 7) 1
    (by decide)

/-- When no popped node ever satisfies the goal, a loop run that terminates
normally can only have ended through the empty-open exit, whose value is the
untouched initial result. -/
lemma aStarLoop_exhausted {Node : Type} [Inhabited Node]
    (outgoing : Node → List (Edge Node)) (compareNodes' : Node → Node → Int)
    (keyEq : Node → Node → Bool) (start : Node) (goal : Node → Bool)
    (heuristics' : Node → Except String Int) (budget : Int) (clock : Nat → Nat)
    (hgoal : ∀ n, goal n = false) :
    ∀ (fuel iter : Nat) (openNodes : List (CostNode Node)) (closed : List Node)
      (preds : List (Node × CostNode Node)) (r : SearchResult Node),
      aStarLoop outgoing compareNodes' keyEq start goal heuristics' budget clock
        fuel iter openNodes closed preds = some (Except.ok r) →
      r = ⟨[start], 0⟩ := by
  intro fuel
  induction fuel with
  | zero =>
    intro iter openNodes closed preds r h
    cases h
  | succ fuel ih =>
    intro iter openNodes closed preds r h
    unfold aStarLoop at h
    split_ifs at h with h1 h2
    · simp only [Option.some.injEq, Except.ok.injEq] at h
      exact h.symm
    · cases hpop : heapRemoveRoot compareFValue openNodes with
      | mk copt rest =>
        rw [hpop] at h
        cases copt with
        | none => simp at h
        | some current =>
          simp only [] at h
          rw [hgoal current.node] at h
          simp only [Bool.false_eq_true, if_false] at h
          cases hexp : expandEdges compareNodes' keyEq heuristics' current
              (setAdd keyEq closed current.node) (outgoing current.node) rest preds with
          | error e =>
            rw [hexp] at h
            simp at h
          | ok pr =>
            rw [hexp] at h
            exact ih _ _ _ _ _ h
    · cases Option.some.inj h

/-- C2 counterexample: a one-node graph with no edges and an unsatisfiable
goal exhausts the open set, and `aStarSearch` RETURNS the initial
`SearchResult {path: [start], cost: 0}` — no `NoPlanFound` failure is ever
signalled. -/
theorem aStar_no_plan_returns_default :
    aStarSearch (fun _ : Nat => ([] : List (Edge Nat))) (fun a b => (a : Int) - b)
      (fun a b => a == b) 0 (fun _ => false) (fun _ => Except.ok 0) 5 (fun _ => 0) 3 =
      some (Except.ok ⟨[0], 0⟩) := rfl

/-- C2 amended: whenever `aStarSearch` exhausts its open set without popping
a goal-satisfying node and without timing out, it does NOT signal any
failure: it returns the initial `SearchResult` with `path = [start]` and
`cost = 0` (the spec's `NoPlanFound` never exists in the code). -/
theorem aStar_exhausted_returns_default {Node : Type} [Inhabited Node]
    (outgoing : Node → List (Edge Node)) (compareNodes' : Node → Node → Int)
    (keyEq : Node → Node → Bool) (start : Node) (goal : Node → Bool)
    (heuristics' : Node → Except String Int) (timeout : Int) (clock : Nat → Nat)
    (fuel : Nat) (r : SearchResult Node) (hgoal : ∀ n, goal n = false)
    (hrun : aStarSearch outgoing compareNodes' keyEq start goal heuristics' timeout
      clock fuel = some (Except.ok r)) :
    r = ⟨[start], 0⟩ := by
  unfold aStarSearch at hrun
  exact aStarLoop_exhausted outgoing compareNodes' keyEq start goal heuristics'
    (timeout * 1000) clock hgoal fuel 0 _ _ _ r hrun

/-- C2 witness: the amended statement applied to a concrete exhausted run. -/
theorem aStar_exhausted_returns_default_witness :
    (⟨[0], 0⟩ : SearchResult Nat) = ⟨[0], 0⟩ :=
  aStar_exhausted_returns_default (fun _ : Nat => ([] : List (Edge Nat)))
    (fun a b => (a : Int) - b) (fun a b => a == b) 0 (fun _ => false)
    (fun _ => Except.ok 0) 5 (fun _ => 0) 3 ⟨[0], 0⟩ (fun _ => rfl) rfl

/-! ### The planner driver (C7) -/

instance : Inhabited WorldState := ⟨⟨[], none, 0, [], []⟩⟩

instance : Inhabited StateNode := ⟨⟨"", default⟩⟩

/-- Key equality for `StateNode`s in the search engine's `Set`/`Dictionary`,
which key by `toString() = JSON.stringify(this)`; as with `compareTo`, the
stringify equality is structural equality of the node. -/
def stateNodeKeyEq (a b : StateNode) : Bool :=
  a = b

/-- Squeeze a `JNum` heuristic value into the engine's integer costs.
Infinite values only arise from empty clauses or formulas, which the
interpreter never produces; no verified execution evaluates the heuristic at
such a formula. -/
def jnToInt : JNum → Int
  | some (some n) => n
  | _ => 0

/-- The `aStarSearch` call of `planInterpretation`: the `StateGraph`, the
start node with the empty move label, the goal test and heuristic closed
over the interpretation, and the fixed timeout of 5 seconds. -/
def planSearch (interpretation : DNFFormula) (state : WorldState) (clock : Nat → Nat)
    (fuel : Nat) : Option (Except String (SearchResult StateNode)) :=
  aStarSearch outgoingEdges compareNodes stateNodeKeyEq ⟨"", state⟩
    (fun node => isGoal interpretation node.state)
    (fun node => (heuristics interpretation node.state).map jnToInt) 5 clock fuel

/-- `planInterpretation`: run the search, then collect the non-empty move
labels along the returned path. -/
def planInterpretation (interpretation : DNFFormula) (state : WorldState)
    (clock : Nat → Nat) (fuel : Nat) : Option (Except String (List String)) :=
  match planSearch interpretation state clock fuel with
  | none => none
  | some (Except.error e) => some (Except.error e)
  | some (Except.ok result) =>
    some (Except.ok (result.path.foldl
      (fun actions node => if node.move.length > 0 then actions ++ [node.move] else actions)
      []))

/-- The `forEach`-with-`try`/`catch` accumulation of `Planner.plan`: each
interpretation contributes its plan (an empty plan becomes the already-true
message) or records its error; afterwards the plans are returned if any
exist, else the first error is re-thrown (`throw errors[0]`, which on an
empty input throws `undefined`). -/
def planGo (currentState : WorldState) (clock : Nat → Nat) (fuel : Nat) :
    List DNFFormula → List (List String) → List String →
      Option (Except String (List (List String)))
  | [], plans, errors =>
    some (if plans.length ≠ 0 then Except.ok plans
      else match errors with
        | e :: _ => Except.error e
        | [] => Except.error "undefined")
  | interpretation :: rest, plans, errors =>
    match planInterpretation interpretation currentState clock fuel with
    | none => none
    | some (Except.ok p) =>
      planGo currentState clock fuel rest
        (plans ++ [if p.length = 0 then ["That is already true!"] else p]) errors
    | some (Except.error e) => planGo currentState clock fuel rest plans (errors ++ [e])

/-- `Planner.plan`. -/
def plan (interpretations : List DNFFormula) (currentState : WorldState)
    (clock : Nat → Nat) (fuel : Nat) : Option (Except String (List (List String))) :=
  planGo currentState clock fuel interpretations [] []

/-- `stateNodeKeyEq` is reflexive. -/
lemma stateNodeKeyEq_self (a : StateNode) : stateNodeKeyEq a a = true := by
  simp [stateNodeKeyEq]

/-- When the start state already satisfies the formula, the search pops the
start node first, recognises it as a goal, and returns the one-node path at
cost 0. -/
lemma planSearch_goal_start (f : DNFFormula) (s : WorldState) (clock : Nat → Nat)
    (fuel : Nat) (hgoal : isGoal f s = true) (hclock : (clock 0 : Int) < 5000)
    (hfuel : 0 < fuel) :
    planSearch f s clock fuel = some (Except.ok ⟨[⟨"", s⟩], 0⟩) := by
  obtain ⟨F, rfl⟩ : ∃ F, fuel = F + 1 := ⟨fuel - 1, by omega⟩
  unfold planSearch aStarSearch
  have hadd : heapAdd compareFValue [] (⟨⟨"", s⟩, 0, 0⟩ : CostNode StateNode) =
      [⟨⟨"", s⟩, 0, 0⟩] := rfl
  have hdict : dictSet stateNodeKeyEq [] ⟨"", s⟩ ⟨⟨"", s⟩, 0, 0⟩ =
      [(⟨"", s⟩, ⟨⟨"", s⟩, 0, 0⟩)] := rfl
  rw [hadd, hdict]
  unfold aStarLoop
  have hne : heapIsEmpty [(⟨⟨"", s⟩, 0, 0⟩ : CostNode StateNode)] = false := rfl
  rw [hne]
  have htime : ((clock 0 : Int) < 5 * 1000) := by omega
  have hpop : heapRemoveRoot compareFValue [(⟨⟨"", s⟩, 0, 0⟩ : CostNode StateNode)] =
      (some ⟨⟨"", s⟩, 0, 0⟩, []) := rfl
  rw [hpop]
  simp only [Bool.false_eq_true, if_false, htime, not_true_eq_false,
    not_false_eq_true, if_true]
  rw [hgoal]
  have hrec : reconstructPath stateNodeKeyEq
      [((⟨"", s⟩ : StateNode), (⟨⟨"", s⟩, 0, 0⟩ : CostNode StateNode))] ⟨"", s⟩
      ([((⟨"", s⟩ : StateNode), (⟨⟨"", s⟩, 0, 0⟩ : CostNode StateNode))].length + 2)
      ⟨⟨"", s⟩, 0, 0⟩ [] = some (Except.ok [⟨"", s⟩]) := by
    simp [reconstructPath, dictGet, stateNodeKeyEq_self, List.find?]
  rw [hrec]
  simp

/-- C7: when the initial world state already satisfies the formula,
`Planner.plan` returns the single plan `["That is already true!"]` (the
search's one-node path has only the empty start label, so the collected
action list is empty and the driver pushes the message), and the underlying
`aStarSearch` call returns cost 0. -/
theorem plan_already_true (f : DNFFormula) (s : WorldState) (clock : Nat → Nat)
    (fuel : Nat) (hgoal : isGoal f s = true) (hclock : (clock 0 : Int) < 5000)
    (hfuel : 0 < fuel) :
    plan [f] s clock fuel = some (Except.ok [["That is already true!"]]) ∧
    planSearch f s clock fuel = some (Except.ok ⟨[⟨"", s⟩], 0⟩) := by
  have hsearch := planSearch_goal_start f s clock fuel hgoal hclock hfuel
  refine ⟨?_, hsearch⟩
  unfold plan planGo planInterpretation
  rw [hsearch]
  simp [planGo]

/-- C7 witness: the already-holding goal `holding(b)` in `dropDemoState`
yields exactly the already-true message at cost 0. -/
theorem plan_already_true_witness :
    plan [[[Literal.mk true "holding" ["b"]]]] dropDemoState (fun _ => 0) 1 =
      some (Except.ok [["That is already true!"]]) ∧
    planSearch [[Literal.mk true "holding" ["b"]]] dropDemoState (fun _ => 0) 1 =
      some (Except.ok ⟨[⟨"", dropDemoState⟩], 0⟩) :=
  plan_already_true [[Literal.mk true "holding" ["b"]]] dropDemoState (fun _ => 0) 1
    (by decide) (by decide) (by decide)
